import Mathlib

/-!
Verification development for the OLI language front end (lexer and
expression parser).  The Rust sources `src/lexer/lexer.rs`,
`src/ast/parser.rs`, `src/ast/expression.rs` are embedded shallowly:

* Rust `String` source text is a `List Char`; Rust mixes byte indices
  (`source.len()`, slice indexing `source[a..b]`) with character indices
  (`source.chars().nth(i)`), so the embedding keeps both views: byte
  offsets are measured with `Char.utf8Size`, and a byte-range slice of a
  `List Char` is partial (`Option`), failing exactly when Rust string
  slicing would panic (out of range or not on a character boundary).
* Panics (`unwrap` of `None`, out-of-range slicing / indexing) are
  modeled as exceptional results: `Except Lexer` for the lexer (the
  error value is the lexer state at the moment of the panic) and `none`
  for the parser.
* The numeric literal payload (`f64` parsed from the scanned text, later
  narrowed to `f32`) is modeled as the exact rational value of the
  decimal literal; binary floating-point rounding is outside the scope
  of the claims checked here, which only involve small integer literals.
* Loops are given explicit fuel; fuel values are chosen large enough
  that exhaustion is unreachable for the runs the theorems below speak
  about (each loop iteration advances the cursor).
-/

/-- Modelled from the spec: the token module `crate::lexer::token` is not
among the provided sources.  `TokenType`, `LiteralValue` (here
`TokenLiteralValue`, the alias used by `expression.rs`) and `Token` are
reconstructed from the spec's data model (spec section 3) and from every
use in `lexer.rs`, `parser.rs` and `expression.rs`. -/
inductive TokenType where
  | LeftParen | RightParen | LeftBrace | RightBrace
  | Comma | Dot | Minus | Plus | SemiColon | Star | Slash
  | Bang | BangEqual | Equal | EqualEqual
  | Less | LessEqual | Greater | GreaterEqual
  | Number | StringLiteral | Identifier
  | And | Class | Else | False | For | Function | If | Nil | Or
  | Say | Return | Super | This | True | Variable | While
  | Eof
  deriving DecidableEq

/-- Modelled from the spec: the literal payload a token may carry
(`crate::lexer::token::LiteralValue`); the numeric `f64` payload is the
exact rational value of the decimal literal. -/
inductive TokenLiteralValue where
  | IntValue (v : Int)
  | FValue (v : Rat)
  | StringValue (s : String)
  | IdentifierValue (s : String)
  deriving DecidableEq

/-- Modelled from the spec: `crate::lexer::token::Token` with fields
`token_type`, `lexeme`, `literal`, `line_number`. -/
structure Token where
  token_type : TokenType
  lexeme : String
  literal : Option TokenLiteralValue
  line_number : Nat
  deriving DecidableEq

/-- `get_keywords` from `lexer.rs`: the fixed keyword table.  A `HashMap`
lookup is an exact-match lookup, modeled by `List.lookup` over the
association list. -/
def get_keywords : List (String × TokenType) :=
  [("and", TokenType.And),
   ("class", TokenType.Class),
   ("else", TokenType.Else),
   ("False", TokenType.False),
   ("for", TokenType.For),
   ("fun", TokenType.Function),
   ("if", TokenType.If),
   ("Nil", TokenType.Nil),
   ("or", TokenType.Or),
   ("say", TokenType.Say),
   ("return", TokenType.Return),
   ("super", TokenType.Super),
   ("this", TokenType.This),
   ("True", TokenType.True),
   ("var", TokenType.Variable),
   ("while", TokenType.While)]

/-- The `Lexer` struct from `lexer.rs` (the keyword table is the global
`get_keywords`, immutable, so it is not part of the state). -/
structure Lexer where
  source : List Char
  tokens : List Token
  start : Nat
  current : Nat
  line : Nat
  deriving DecidableEq

/-- Rust `self.source.len()`: the UTF-8 byte length of the source. -/
def srcLen (s : List Char) : Nat := (s.map Char.utf8Size).sum

/-- Drop `n` leading UTF-8 bytes from a character list; `none` when `n`
is not a character boundary or exceeds the text (Rust slicing panics). -/
def dropBytes : List Char → Nat → Option (List Char)
  | cs, 0 => some cs
  | [], _ + 1 => none
  | c :: cs, n + 1 =>
    if c.utf8Size ≤ n + 1 then dropBytes cs (n + 1 - c.utf8Size) else none

/-- Take `n` leading UTF-8 bytes from a character list; `none` when `n`
is not a character boundary or exceeds the text. -/
def takeBytes : List Char → Nat → Option (List Char)
  | _, 0 => some []
  | [], _ + 1 => none
  | c :: cs, n + 1 =>
    if c.utf8Size ≤ n + 1 then
      match takeBytes cs (n + 1 - c.utf8Size) with
      | some ds => some (c :: ds)
      | none => none
    else none

/-- Rust `&source[a..b]`: byte-range string slice, `none` exactly when
Rust would panic (reversed range, out of range, or mid-character cut). -/
def byteSlice (s : List Char) (a b : Nat) : Option (List Char) :=
  if a ≤ b then
    match dropBytes s a with
    | some rest => takeBytes rest (b - a)
    | none => none
  else none

def nullChar : Char := Char.ofNat 0

/-- `Lexer::is_at_end`: compares the character-counting cursor against
the byte length of the source. -/
def Lexer.is_at_end (st : Lexer) : Bool := srcLen st.source ≤ st.current

/-- `ch as u8` in Rust: truncation of the scalar value to its low byte. -/
def asU8 (ch : Char) : Nat := ch.toNat % 256

/-- `Lexer::is_digit`. -/
def is_digit (ch : Char) : Bool := decide (48 ≤ asU8 ch ∧ asU8 ch ≤ 57)

/-- `Lexer::is_alphabetical`. -/
def is_alphabetical (ch : Char) : Bool :=
  decide ((97 ≤ asU8 ch ∧ asU8 ch ≤ 122) ∨ (65 ≤ asU8 ch ∧ asU8 ch ≤ 90) ∨ asU8 ch = 95)

/-- `Lexer::is_alpha_numeric`. -/
def is_alpha_numeric (ch : Char) : Bool := is_alphabetical ch || is_digit ch

/-- `Lexer::peek`: `'\0'` at end of input, otherwise
`source.chars().nth(current).unwrap()` — the `unwrap` panics when
`current` lies between the character count and the byte length. -/
def Lexer.peek (st : Lexer) : Except Lexer Char :=
  if st.is_at_end then Except.ok nullChar
  else
    match st.source[st.current]? with
    | some c => Except.ok c
    | none => Except.error st

/-- `Lexer::peek_next`. -/
def Lexer.peek_next (st : Lexer) : Except Lexer Char :=
  if srcLen st.source ≤ st.current + 1 then Except.ok nullChar
  else
    match st.source[st.current + 1]? with
    | some c => Except.ok c
    | none => Except.error st

/-- `Lexer::advance`: `source.chars().nth(current).unwrap()` then
`current += 1`. -/
def Lexer.advance (st : Lexer) : Except Lexer (Char × Lexer) :=
  match st.source[st.current]? with
  | some c => Except.ok (c, { st with current := st.current + 1 })
  | none => Except.error st

/-- `Lexer::char_match`. -/
def Lexer.char_match (st : Lexer) (c : Char) : Except Lexer (Bool × Lexer) :=
  if st.is_at_end then Except.ok (false, st)
  else
    match st.source[st.current]? with
    | some ch =>
      if ch ≠ c then Except.ok (false, st)
      else Except.ok (true, { st with current := st.current + 1 })
    | none => Except.error st

/-- `Lexer::add_token_literal`: the lexeme is the byte slice
`source[start..current]` (panics on a non-boundary cut). -/
def Lexer.add_token_literal (st : Lexer) (ty : TokenType)
    (lit : Option TokenLiteralValue) : Except Lexer Lexer :=
  match byteSlice st.source st.start st.current with
  | some cs =>
    Except.ok { st with tokens := st.tokens ++ [⟨ty, String.mk cs, lit, st.line⟩] }
  | none => Except.error st

/-- `Lexer::add_token`. -/
def Lexer.add_token (st : Lexer) (ty : TokenType) : Except Lexer Lexer :=
  st.add_token_literal ty none

/-- The `while is_alpha_numeric(peek) { advance }` loop of
`Lexer::identifier`. -/
def identLoop : Nat → Lexer → Except Lexer Lexer
  | 0, st => Except.error st
  | f + 1, st =>
    match st.peek with
    | Except.error p => Except.error p
    | Except.ok c =>
      if is_alpha_numeric c then
        match st.advance with
        | Except.error p => Except.error p
        | Except.ok (_, st1) => identLoop f st1
      else Except.ok st

/-- `Lexer::identifier`. -/
def Lexer.identifier (st : Lexer) : Except Lexer Lexer :=
  match identLoop (srcLen st.source + 2) st with
  | Except.error p => Except.error p
  | Except.ok st1 =>
    match byteSlice st1.source st1.start st1.current with
    | none => Except.error st1
    | some cs =>
      match get_keywords.lookup (String.mk cs) with
      | some ty => st1.add_token ty
      | none => st1.add_token TokenType.Identifier

/-- Exact decimal value of a scanned numeric literal of the shape
`digits(.digits)?`; models `substring.parse::<f64>()` on the scanner's
number grammar (the value is exact, rounding is out of scope). -/
def digitsVal (ds : List Char) : Nat :=
  ds.foldl (fun a c => a * 10 + (c.toNat - 48)) 0

def allDigits (ds : List Char) : Bool := ds.all is_digit

def parseDecimal (cs : List Char) : Option Rat :=
  match cs.span (fun c => c ≠ '.') with
  | (ip, []) =>
    if ip ≠ [] ∧ allDigits ip then some (digitsVal ip : Rat) else none
  | (ip, _ :: fp) =>
    if ip ≠ [] ∧ fp ≠ [] ∧ allDigits ip ∧ allDigits fp then
      some ((digitsVal ip : Rat) + (digitsVal fp : Rat) / ((10 : Rat) ^ fp.length))
    else none

/-- The `while is_digit(peek) { advance }` loops of `Lexer::number`. -/
def numLoop : Nat → Lexer → Except Lexer Lexer
  | 0, st => Except.error st
  | f + 1, st =>
    match st.peek with
    | Except.error p => Except.error p
    | Except.ok c =>
      if is_digit c then
        match st.advance with
        | Except.error p => Except.error p
        | Except.ok (_, st1) => numLoop f st1
      else Except.ok st

/-- `Lexer::number`: scans digits, optionally a decimal point followed by
digits, then parses the slice; a `Result::Err` of the parse is a scan
error (the `Option String` component). -/
def Lexer.number (st : Lexer) : Except Lexer (Lexer × Option String) :=
  match numLoop (srcLen st.source + 2) st with
  | Except.error p => Except.error p
  | Except.ok st1 =>
    let afterDot : Except Lexer Lexer :=
      match st1.peek with
      | Except.error p => Except.error p
      | Except.ok c =>
        if c = '.' then
          match st1.peek_next with
          | Except.error p => Except.error p
          | Except.ok d =>
            if is_digit d then
              match st1.advance with
              | Except.error p => Except.error p
              | Except.ok (_, st2) => numLoop (srcLen st2.source + 2) st2
            else Except.ok st1
        else Except.ok st1
    match afterDot with
    | Except.error p => Except.error p
    | Except.ok st3 =>
      match byteSlice st3.source st3.start st3.current with
      | none => Except.error st3
      | some cs =>
        match parseDecimal cs with
        | some v =>
          match st3.add_token_literal TokenType.Number (some (TokenLiteralValue.FValue v)) with
          | Except.error p => Except.error p
          | Except.ok st4 => Except.ok (st4, none)
        | none => Except.ok (st3, some ("Could not parse number: " ++ String.mk cs))

/-- The `while peek != double-quote and not-at-end` loop of
`Lexer::string` (the peek happens before the end test, as in Rust's
short-circuit `&&`). -/
def stringLoop : Nat → Lexer → Except Lexer Lexer
  | 0, st => Except.error st
  | f + 1, st =>
    match st.peek with
    | Except.error p => Except.error p
    | Except.ok c =>
      if c ≠ '"' ∧ ¬ st.is_at_end then
        let st1 := if c = '\n' then { st with line := st.line + 1 } else st
        match st1.advance with
        | Except.error p => Except.error p
        | Except.ok (_, st2) => stringLoop f st2
      else Except.ok st

/-- `Lexer::string`: called with the opening quote already consumed
(`start` at the quote).  Produces either the string token or the scan
error message "Unterminated string." (the `Option String` component). -/
def Lexer.stringLit (st : Lexer) : Except Lexer (Lexer × Option String) :=
  match stringLoop (srcLen st.source + 2) st with
  | Except.error p => Except.error p
  | Except.ok st1 =>
    if st1.is_at_end then Except.ok (st1, some "Unterminated string.")
    else
      match st1.advance with
      | Except.error p => Except.error p
      | Except.ok (_, st2) =>
        match byteSlice st2.source (st2.start + 1) (st2.current - 1) with
        | none => Except.error st2
        | some cs =>
          match st2.add_token_literal TokenType.StringLiteral
              (some (TokenLiteralValue.StringValue (String.mk cs))) with
          | Except.error p => Except.error p
          | Except.ok st3 => Except.ok (st3, none)

/-- The `loop { if peek = newline or at-end break; advance }` comment
skipper in `Lexer::scan_token`. -/
def commentLoop : Nat → Lexer → Except Lexer Lexer
  | 0, st => Except.error st
  | f + 1, st =>
    match st.peek with
    | Except.error p => Except.error p
    | Except.ok c =>
      if c = '\n' ∨ st.is_at_end then Except.ok st
      else
        match st.advance with
        | Except.error p => Except.error p
        | Except.ok (_, st1) => commentLoop f st1

/-- `Lexer::scan_token`: one dispatch on the next character.  The result
carries the possibly produced scan error message (`Result::Err`). -/
def Lexer.scan_token (st : Lexer) : Except Lexer (Lexer × Option String) :=
  match st.advance with
  | Except.error p => Except.error p
  | Except.ok (c, st1) =>
    let tok (r : Except Lexer Lexer) : Except Lexer (Lexer × Option String) :=
      match r with
      | Except.error p => Except.error p
      | Except.ok st2 => Except.ok (st2, none)
    if c = '(' then tok (st1.add_token TokenType.LeftParen)
    else if c = ')' then tok (st1.add_token TokenType.RightParen)
    else if c = '{' then tok (st1.add_token TokenType.LeftBrace)
    else if c = '}' then tok (st1.add_token TokenType.RightBrace)
    else if c = ',' then tok (st1.add_token TokenType.Comma)
    else if c = '.' then tok (st1.add_token TokenType.Dot)
    else if c = '-' then tok (st1.add_token TokenType.Minus)
    else if c = '+' then tok (st1.add_token TokenType.Plus)
    else if c = ';' then tok (st1.add_token TokenType.SemiColon)
    else if c = '*' then tok (st1.add_token TokenType.Star)
    else if c = '!' then
      match st1.char_match '=' with
      | Except.error p => Except.error p
      | Except.ok (b, st2) =>
        tok (st2.add_token (if b then TokenType.BangEqual else TokenType.Bang))
    else if c = '=' then
      match st1.char_match '=' with
      | Except.error p => Except.error p
      | Except.ok (b, st2) =>
        tok (st2.add_token (if b then TokenType.EqualEqual else TokenType.Equal))
    else if c = '<' then
      match st1.char_match '=' with
      | Except.error p => Except.error p
      | Except.ok (b, st2) =>
        tok (st2.add_token (if b then TokenType.LessEqual else TokenType.Less))
    else if c = '>' then
      match st1.char_match '=' with
      | Except.error p => Except.error p
      | Except.ok (b, st2) =>
        tok (st2.add_token (if b then TokenType.GreaterEqual else TokenType.Greater))
    else if c = '/' then
      match st1.char_match '/' with
      | Except.error p => Except.error p
      | Except.ok (true, st2) => tok (commentLoop (srcLen st2.source + 2) st2)
      | Except.ok (false, st2) => tok (st2.add_token TokenType.Slash)
    else if c = ' ' ∨ c = '\r' ∨ c = '\t' then Except.ok (st1, none)
    else if c = '\n' then Except.ok ({ st1 with line := st1.line + 1 }, none)
    else if c = '"' then st1.stringLit
    else if is_digit c then st1.number
    else if is_alphabetical c then tok st1.identifier
    else
      Except.ok (st1, some ("Unrecognized char at line " ++ toString st1.line ++ ": "
        ++ String.singleton c))

/-- The `while !is_at_end { start = current; scan_token }` loop of
`Lexer::scan_tokens`, collecting the scan error messages in order. -/
def scanLoop : Nat → Lexer → List String → Except Lexer (Lexer × List String)
  | 0, st, _ => Except.error st
  | f + 1, st, errs =>
    if st.is_at_end then Except.ok (st, errs)
    else
      match Lexer.scan_token { st with start := st.current } with
      | Except.error p => Except.error p
      | Except.ok (st1, none) => scanLoop f st1 errs
      | Except.ok (st1, some msg) => scanLoop f st1 (errs ++ [msg])

/-- The final end-of-input token push of `Lexer::scan_tokens`. -/
def pushEof (st : Lexer) : Lexer :=
  { st with tokens := st.tokens ++ [⟨TokenType.Eof, "", none, st.line⟩] }

/-- The error-joining loop of `Lexer::scan_tokens`: every message is
appended followed by a newline. -/
def joinErrors (errs : List String) : String :=
  errs.foldl (fun acc m => acc ++ m ++ "\n") ""

/-- `Lexer::new`. -/
def Lexer.mkNew (src : List Char) : Lexer := ⟨src, [], 0, 0, 1⟩

/-- `Lexer::scan_tokens`: scans the whole source, pushes the Eof token,
then returns `Err` of the joined messages when any scan error occurred,
otherwise `Ok` of the token list.  The surviving lexer state (holding
the best-effort token sequence) is returned alongside the `Result`. -/
def scan_tokens (src : List Char) : Except Lexer (Lexer × Except String (List Token)) :=
  match scanLoop (srcLen src + 1) (Lexer.mkNew src) [] with
  | Except.error p => Except.error p
  | Except.ok (st, errs) =>
    let st1 := pushEof st
    if errs = [] then Except.ok (st1, Except.ok st1.tokens)
    else Except.ok (st1, Except.error (joinErrors errs))

/-! ## AST model (`src/ast/expression.rs`) -/

/-- `LiteralValue` from `expression.rs` (the AST literal; `Number` holds
the `f32` value, modeled exactly as a rational). -/
inductive LiteralValue where
  | Number (v : Rat)
  | StringValue (s : String)
  | True
  | False
  | Nil
  deriving DecidableEq

/-- `unwrap_as_f32` from `expression.rs`; panics (`none`) on a missing or
non-numeric payload. -/
def unwrap_as_f32 (lit : Option TokenLiteralValue) : Option Rat :=
  match lit with
  | some (TokenLiteralValue.IntValue x) => some (x : Rat)
  | some (TokenLiteralValue.FValue x) => some x
  | _ => none

/-- `unwrap_as_string` from `expression.rs`; panics (`none`) on a missing
or non-string payload. -/
def unwrap_as_string (lit : Option TokenLiteralValue) : Option String :=
  match lit with
  | some (TokenLiteralValue.StringValue s) => some s
  | some (TokenLiteralValue.IdentifierValue s) => some s
  | _ => none

/-- `LiteralValue::from_token`; panics (`none`) on a token kind that is
not a literal, or via the unwrap helpers on an ill-typed payload. -/
def LiteralValue.from_token (t : Token) : Option LiteralValue :=
  match t.token_type with
  | TokenType.Number =>
    match unwrap_as_f32 t.literal with
    | some v => some (LiteralValue.Number v)
    | none => none
  | TokenType.StringLiteral =>
    match unwrap_as_string t.literal with
    | some s => some (LiteralValue.StringValue s)
    | none => none
  | TokenType.False => some LiteralValue.False
  | TokenType.True => some LiteralValue.True
  | TokenType.Nil => some LiteralValue.Nil
  | _ => none

/-- `Expression` from `expression.rs`. -/
inductive Expression where
  | Binary (left : Expression) (operator : Token) (right : Expression)
  | Grouping (expression : Expression)
  | Literal (value : LiteralValue)
  | Unary (operator : Token) (right : Expression)
  deriving DecidableEq

/-- Rendering of the `f32` payload (Rust `Display`): an integral value
prints without a decimal point, a finite decimal prints exactly; values
whose exact decimal form does not terminate are outside the claims
checked here. -/
def padZeros (k : Nat) (s : String) : String :=
  String.mk (List.replicate (k - s.length) '0') ++ s

def fValueToString (q : Rat) : String :=
  if q.den = 1 then toString q.num
  else
    match (List.range 60).find? (fun k => 10 ^ (k + 1) % q.den = 0) with
    | some k0 =>
      let k := k0 + 1
      let sign := if q.num < 0 then "-" else ""
      let n := q.num.natAbs * (10 ^ k / q.den)
      sign ++ toString (n / 10 ^ k) ++ "." ++ padZeros k (toString (n % 10 ^ k))
    | none => toString q.num ++ "/" ++ toString q.den

/-- `LiteralValue::to_string` from `expression.rs`. -/
def LiteralValue.to_string : LiteralValue → String
  | LiteralValue.Number x => fValueToString x
  | LiteralValue.StringValue x => x
  | LiteralValue.True => "True"
  | LiteralValue.False => "False"
  | LiteralValue.Nil => "Nil"

/-- `Expression::to_string` from `expression.rs`: parenthesized-prefix
rendering. -/
def Expression.to_string : Expression → String
  | Expression.Binary l op r =>
    "(" ++ op.lexeme ++ " " ++ l.to_string ++ " " ++ r.to_string ++ ")"
  | Expression.Grouping e => "(group " ++ e.to_string ++ ")"
  | Expression.Literal v => v.to_string
  | Expression.Unary op r => "(" ++ op.lexeme ++ " " ++ r.to_string ++ ")"

/-! ## Parser (`src/ast/parser.rs`)

The parser state is the immutable token list plus the cursor `current`.
An index panic (`self.tokens[self.current]` out of range,
`self.current - 1` underflow) or a literal-payload panic is `none`.
The mutually recursive grammar productions, and the `while` loops inside
`equality`/`comparison`/`term`/`factor`, are the constructors of `PRule`
interpreted by the fuel-indexed `Parser.run`. -/

/-- `Parser::peek` (`self.tokens[self.current]`). -/
def pPeek (toks : List Token) (cur : Nat) : Option Token := toks[cur]?

/-- `Parser::previous` (`self.tokens[self.current - 1]`; `current = 0`
underflows, which is a panic). -/
def pPrevious (toks : List Token) (cur : Nat) : Option Token :=
  if cur = 0 then none else toks[cur - 1]?

/-- `Parser::advance`: increments the cursor unless at `Eof`, then
returns `previous()`. -/
def pAdvance (toks : List Token) (cur : Nat) : Option (Token × Nat) :=
  match pPeek toks cur with
  | none => none
  | some t =>
    let c := if t.token_type = TokenType.Eof then cur else cur + 1
    match pPrevious toks c with
    | none => none
    | some p => some (p, c)

/-- `Parser::match_token`. -/
def matchToken (toks : List Token) (ty : TokenType) (cur : Nat) : Option (Bool × Nat) :=
  match pPeek toks cur with
  | none => none
  | some t =>
    if t.token_type = TokenType.Eof then some (false, cur)
    else if t.token_type = ty then
      match pAdvance toks cur with
      | none => none
      | some (_, c) => some (true, c)
    else some (false, cur)

/-- `Parser::match_tokens`. -/
def matchTokensL (toks : List Token) (tys : List TokenType) (cur : Nat) :
    Option (Bool × Nat) :=
  match tys with
  | [] => some (false, cur)
  | ty :: rest =>
    match matchToken toks ty cur with
    | none => none
    | some (true, c) => some (true, c)
    | some (false, c) => matchTokensL toks rest c

/-- `Parser::consume`. -/
def pConsume (toks : List Token) (ty : TokenType) (msg : String) (cur : Nat) :
    Option (Except String Nat) :=
  match pPeek toks cur with
  | none => none
  | some t =>
    if t.token_type = ty then
      match pAdvance toks cur with
      | none => none
      | some (_, c) => some (Except.ok c)
    else some (Except.error msg)

/-- The grammar productions of `parser.rs` (`expression`, `equality`,
`comparison`, `term`, `factor`, `unary`, `primary`) together with the
four `while match_tokens` loops, each carrying the expression built so
far. -/
inductive PRule where
  | expression | equality | comparison | term | factor | unary | primary
  | eqLoop (e : Expression)
  | compLoop (e : Expression)
  | termLoop (e : Expression)
  | factorLoop (e : Expression)

/-- One interpreter for the mutually recursive productions of
`parser.rs`, indexed by fuel (every call consumes one unit; the fuel in
`Parser.parse` is far larger than the deepest possible call chain). -/
def Parser.run (toks : List Token) : Nat → PRule → Nat → Option (Except String Expression × Nat)
  | 0, _, _ => none
  | f + 1, rule, cur =>
    match rule with
    | PRule.expression => Parser.run toks f PRule.equality cur
    | PRule.equality =>
      match Parser.run toks f PRule.comparison cur with
      | none => none
      | some (Except.error m, c) => some (Except.error m, c)
      | some (Except.ok e, c) => Parser.run toks f (PRule.eqLoop e) c
    | PRule.eqLoop e =>
      match matchTokensL toks [TokenType.BangEqual, TokenType.EqualEqual] cur with
      | none => none
      | some (false, c) => some (Except.ok e, c)
      | some (true, c) =>
        match pPrevious toks c with
        | none => none
        | some op =>
          match Parser.run toks f PRule.comparison c with
          | none => none
          | some (Except.error m, c2) => some (Except.error m, c2)
          | some (Except.ok r, c2) =>
            Parser.run toks f (PRule.eqLoop (Expression.Binary e op r)) c2
    | PRule.comparison =>
      match Parser.run toks f PRule.term cur with
      | none => none
      | some (Except.error m, c) => some (Except.error m, c)
      | some (Except.ok e, c) => Parser.run toks f (PRule.compLoop e) c
    | PRule.compLoop e =>
      match matchTokensL toks
          [TokenType.Greater, TokenType.GreaterEqual, TokenType.Less, TokenType.LessEqual] cur with
      | none => none
      | some (false, c) => some (Except.ok e, c)
      | some (true, c) =>
        match pPrevious toks c with
        | none => none
        | some op =>
          match Parser.run toks f PRule.term c with
          | none => none
          | some (Except.error m, c2) => some (Except.error m, c2)
          | some (Except.ok r, c2) =>
            Parser.run toks f (PRule.compLoop (Expression.Binary e op r)) c2
    | PRule.term =>
      match Parser.run toks f PRule.factor cur with
      | none => none
      | some (Except.error m, c) => some (Except.error m, c)
      | some (Except.ok e, c) => Parser.run toks f (PRule.termLoop e) c
    | PRule.termLoop e =>
      match matchTokensL toks [TokenType.Minus, TokenType.Plus] cur with
      | none => none
      | some (false, c) => some (Except.ok e, c)
      | some (true, c) =>
        match pPrevious toks c with
        | none => none
        | some op =>
          match Parser.run toks f PRule.factor c with
          | none => none
          | some (Except.error m, c2) => some (Except.error m, c2)
          | some (Except.ok r, c2) =>
            Parser.run toks f (PRule.termLoop (Expression.Binary e op r)) c2
    | PRule.factor =>
      match Parser.run toks f PRule.unary cur with
      | none => none
      | some (Except.error m, c) => some (Except.error m, c)
      | some (Except.ok e, c) => Parser.run toks f (PRule.factorLoop e) c
    | PRule.factorLoop e =>
      match matchTokensL toks [TokenType.Slash, TokenType.Star] cur with
      | none => none
      | some (false, c) => some (Except.ok e, c)
      | some (true, c) =>
        match pPrevious toks c with
        | none => none
        | some op =>
          match Parser.run toks f PRule.unary c with
          | none => none
          | some (Except.error m, c2) => some (Except.error m, c2)
          | some (Except.ok r, c2) =>
            Parser.run toks f (PRule.factorLoop (Expression.Binary e op r)) c2
    | PRule.unary =>
      match matchTokensL toks [TokenType.Bang, TokenType.BangEqual] cur with
      | none => none
      | some (true, c) =>
        match pPrevious toks c with
        | none => none
        | some op =>
          match Parser.run toks f PRule.unary c with
          | none => none
          | some (Except.error m, c2) => some (Except.error m, c2)
          | some (Except.ok r, c2) => some (Except.ok (Expression.Unary op r), c2)
      | some (false, c) => Parser.run toks f PRule.primary c
    | PRule.primary =>
      match pPeek toks cur with
      | none => none
      | some token =>
        if token.token_type = TokenType.LeftParen then
          match pAdvance toks cur with
          | none => none
          | some (_, c) =>
            match Parser.run toks f PRule.expression c with
            | none => none
            | some (Except.error m, c2) => some (Except.error m, c2)
            | some (Except.ok e, c2) =>
              match pConsume toks TokenType.RightParen "Expected ')'" c2 with
              | none => none
              | some (Except.error m) => some (Except.error m, c2)
              | some (Except.ok c3) => some (Except.ok (Expression.Grouping e), c3)
        else if token.token_type = TokenType.False ∨ token.token_type = TokenType.True
            ∨ token.token_type = TokenType.Nil ∨ token.token_type = TokenType.Number
            ∨ token.token_type = TokenType.StringLiteral then
          match pAdvance toks cur with
          | none => none
          | some (_, c) =>
            match LiteralValue.from_token token with
            | none => none
            | some v => some (Except.ok (Expression.Literal v), c)
        else some (Except.error "Expected expression", cur)

/-- Fuel passed to the production interpreter by `Parser.parse`; strictly
larger than the deepest call chain any run on `toks` can produce. -/
def parserFuel (toks : List Token) : Nat := 16 * toks.length + 32

/-- `Parser::new` followed by `Parser::parse` (`parse` simply runs the
entry production `expression`).  The final cursor is kept observable. -/
def Parser.parse (toks : List Token) : Option (Except String Expression × Nat) :=
  Parser.run toks (parserFuel toks) PRule.expression 0

/-- The linear data flow of the system: source text through the lexer,
the token sequence through the parser, then the AST rendering
(`Expression::to_string`); `none` when any stage fails or panics. -/
def lexThenParse (s : String) : Option String :=
  match scan_tokens s.data with
  | Except.ok (_, Except.ok toks) =>
    match Parser.parse toks with
    | some (Except.ok e, _) => some e.to_string
    | _ => none
  | _ => none

/-! ## Generic helper lemmas about the scan loop -/

/-- The scan loop only returns normally once the cursor has passed the
byte length of the source: scanning continues past failing lexemes all
the way to end of input. -/
theorem scanLoop_at_end (f : Nat) :
    ∀ (st : Lexer) (errs : List String) (st1 : Lexer) (errs1 : List String),
    scanLoop f st errs = Except.ok (st1, errs1) → st1.is_at_end = true := by
  induction f with
  | zero => intro st errs st1 errs1 h; simp [scanLoop] at h
  | succ f ih =>
    intro st errs st1 errs1 h
    rw [scanLoop] at h
    by_cases hend : st.is_at_end
    · simp [hend] at h
      obtain ⟨h1, _⟩ := h
      rw [← h1]; exact hend
    · simp [hend] at h
      cases hscan : Lexer.scan_token { st with start := st.current } with
      | error p => rw [hscan] at h; cases h
      | ok r =>
        rw [hscan] at h
        obtain ⟨st2, msg⟩ := r
        cases msg with
        | none => exact ih st2 errs st1 errs1 h
        | some m => exact ih st2 (errs ++ [m]) st1 errs1 h

/-- Helper: a scan of `w` in isolation produces exactly the token
`⟨ty, w, _, 1⟩` followed by the end-of-input token. -/
def scansAs (w : String) (ty : TokenType) : Bool :=
  match scan_tokens w.data with
  | Except.ok (_, Except.ok [t, e]) =>
    decide (t.token_type = ty ∧ t.lexeme = w ∧ e.token_type = TokenType.Eof)
  | _ => false

/-! ## Claims -/

/-- Claim C3, counterexample: the data-model section spells the
boolean/nil reserved words in lowercase (`false`, `nil`, `true`), but
scanning the word "false" in isolation yields an `Identifier` token, not
the `False` keyword token: the keyword table only contains the
capitalized spellings. -/
theorem claim_C3_cex :
    scan_tokens "false".data =
      Except.ok (⟨"false".data,
        [⟨TokenType.Identifier, "false", none, 1⟩, ⟨TokenType.Eof, "", none, 1⟩], 0, 5, 1⟩,
        Except.ok [⟨TokenType.Identifier, "false", none, 1⟩, ⟨TokenType.Eof, "", none, 1⟩])
    ∧ TokenType.Identifier ≠ TokenType.False := by
  constructor
  · rfl
  · decide

/-- Claim C3 (amended): for each of the sixteen reserved words as
spelled in the keyword table (`and, class, else, False, for, fun, if,
Nil, or, say, return, super, this, True, var, while`), scanning the word
in isolation yields that word's reserved-keyword token kind; the
lowercase spellings `false`, `nil`, `true` of the data-model section are
not in the table and scan as `Identifier` tokens instead. -/
theorem claim_C3_keywords :
    (scansAs "and" TokenType.And = true
      ∧ scansAs "class" TokenType.Class = true
      ∧ scansAs "else" TokenType.Else = true
      ∧ scansAs "False" TokenType.False = true
      ∧ scansAs "for" TokenType.For = true
      ∧ scansAs "fun" TokenType.Function = true
      ∧ scansAs "if" TokenType.If = true
      ∧ scansAs "Nil" TokenType.Nil = true
      ∧ scansAs "or" TokenType.Or = true
      ∧ scansAs "say" TokenType.Say = true
      ∧ scansAs "return" TokenType.Return = true
      ∧ scansAs "super" TokenType.Super = true
      ∧ scansAs "this" TokenType.This = true
      ∧ scansAs "True" TokenType.True = true
      ∧ scansAs "var" TokenType.Variable = true
      ∧ scansAs "while" TokenType.While = true)
    ∧ (scansAs "false" TokenType.Identifier = true
      ∧ scansAs "nil" TokenType.Identifier = true
      ∧ scansAs "true" TokenType.Identifier = true) := by
  decide

/-- Claim C6: binary operator chains at the same precedence level are
left-associative — lexing then parsing `"1 - 2 - 3"` yields an AST whose
rendering is `"(- (- 1 2) 3)"`. -/
theorem claim_C6_left_assoc : lexThenParse "1 - 2 - 3" = some "(- (- 1 2) 3)" := by
  rfl

/-- Claim C7: equality binds looser than term — lexing then parsing
`"1 + 2 == 5 + 7"` yields an AST whose rendering is
`"(== (+ 1 2) (+ 5 7))"`, both additions being children of the equality
node. -/
theorem claim_C7_precedence : lexThenParse "1 + 2 == 5 + 7" = some "(== (+ 1 2) (+ 5 7))" := by
  rfl

/-- Claim C4, counterexample: on the token sequence `[Number (no
payload), Eof]` — which contains the end-of-input terminator —
`Parser::parse` panics (in `unwrap_as_f32`, reached from
`LiteralValue::from_token` in `primary`) instead of returning a result:
the model yields `none` (abort), not an `Ok`/`Err` value. -/
theorem claim_C4_cex :
    Parser.parse [⟨TokenType.Number, "1", none, 1⟩, ⟨TokenType.Eof, "", none, 1⟩] = none := by
  rfl

/-- Claim C5, counterexample: on the source `"é +x"` (a multi-byte
character followed by ASCII tokens) scanning aborts with an index panic,
and the token list at the moment of the panic holds a `Plus` token whose
lexeme is `" "` — the byte slice taken at character positions — although
the slice of the input the token was scanned from is `"+"`. -/
theorem claim_C5_cex :
    scan_tokens "é +x".data =
      Except.error ⟨"é +x".data, [⟨TokenType.Plus, " ", none, 1⟩], 3, 4, 1⟩
    ∧ (" " : String) ≠ "+" := by
  constructor
  · rfl
  · decide

/-! ## Lemmas for unterminated strings (single-byte sources) -/

theorem srcLen_ascii (s : List Char) : (∀ c ∈ s, c.utf8Size = 1) → srcLen s = s.length := by
  induction s with
  | nil => intro _; rfl
  | cons c cs ih =>
    intro h
    have hc := h c (List.mem_cons_self c cs)
    have hcs := ih (fun d hd => h d (List.mem_cons_of_mem c hd))
    simp [srcLen, List.map_cons, List.sum_cons] at hcs ⊢
    omega

/-- When no closing quote occurs at or after the cursor of a single-byte
source, the string loop consumes everything up to end of input and
changes nothing but `current` and `line`. -/
theorem stringLoop_no_quote : ∀ (f : Nat) (st : Lexer),
    (∀ c ∈ st.source, c.utf8Size = 1) →
    st.current ≤ st.source.length →
    (∀ c ∈ st.source.drop st.current, c ≠ '"') →
    st.source.length - st.current < f →
    ∃ st1, stringLoop f st = Except.ok st1 ∧ st1.source = st.source
      ∧ st1.tokens = st.tokens ∧ st1.start = st.start
      ∧ st1.current = st.source.length := by
  intro f
  induction f with
  | zero => intro st _ _ _ hf; omega
  | succ f ih =>
    intro st hA hcur hq hf
    obtain ⟨src, tks, sst, cur, lin⟩ := st
    simp only at hA hcur hq hf
    have hlen : srcLen src = src.length := srcLen_ascii src hA
    by_cases hend : src.length ≤ cur
    · have heq : cur = src.length := by omega
      have hpeek : Lexer.peek ⟨src, tks, sst, cur, lin⟩ = Except.ok nullChar := by
        simp [Lexer.peek, Lexer.is_at_end, hlen, hend]
      have hd : ¬ (nullChar ≠ '"' ∧ ¬ (Lexer.is_at_end ⟨src, tks, sst, cur, lin⟩ : Bool)) := by
        simp [Lexer.is_at_end, hlen, hend]
      refine ⟨⟨src, tks, sst, cur, lin⟩, ?_, rfl, rfl, rfl, heq⟩
      simp only [stringLoop, hpeek]
      rw [if_neg hd]
    · have hlt : cur < src.length := by omega
      obtain ⟨c, hc⟩ : ∃ c, src[cur]? = some c :=
        ⟨src.get ⟨cur, hlt⟩, List.getElem?_eq_getElem hlt⟩
      have hnend : Lexer.is_at_end ⟨src, tks, sst, cur, lin⟩ = false := by
        simp [Lexer.is_at_end, hlen]; omega
      have hpeek : Lexer.peek ⟨src, tks, sst, cur, lin⟩ = Except.ok c := by
        simp [Lexer.peek, hnend, hc]
      have hmem : c ∈ src.drop cur := by
        rw [List.mem_iff_getElem?]
        exact ⟨0, by rw [List.getElem?_drop]; simpa using hc⟩
      have hcq : c ≠ '"' := hq c hmem
      have hq1 : ∀ d ∈ src.drop (cur + 1), d ≠ '"' := by
        intro d hd
        refine hq d ?_
        have hdd : src.drop (cur + 1) = (src.drop cur).drop 1 := by
          rw [List.drop_drop]
        rw [hdd] at hd
        exact List.drop_subset 1 _ hd
      simp only [stringLoop, hpeek]
      rw [if_pos ⟨hcq, by simp [hnend]⟩]
      by_cases hnl : c = '\n'
      · have hadv : Lexer.advance ⟨src, tks, sst, cur, lin + 1⟩ =
            Except.ok (c, ⟨src, tks, sst, cur + 1, lin + 1⟩) := by
          simp [Lexer.advance, hc]
        rw [if_pos hnl]
        simp only [hadv]
        exact ih ⟨src, tks, sst, cur + 1, lin + 1⟩ hA (by show cur + 1 ≤ src.length; omega) hq1
          (by show src.length - (cur + 1) < f; omega)
      · have hadv : Lexer.advance ⟨src, tks, sst, cur, lin⟩ =
            Except.ok (c, ⟨src, tks, sst, cur + 1, lin⟩) := by
          simp [Lexer.advance, hc]
        rw [if_neg hnl]
        simp only [hadv]
        exact ih ⟨src, tks, sst, cur + 1, lin⟩ hA (by show cur + 1 ≤ src.length; omega) hq1
          (by show src.length - (cur + 1) < f; omega)

/-- Claim C9 (amended): on sources of single-byte characters, a string
literal whose opening quote is never matched by a closing quote before
end of input is a scan error "Unterminated string." and produces no
token: `Lexer::string`, entered after the opening quote with no quote
remaining, errors with the token list untouched; at the `scan_tokens`
level the source `"\"abc"` yields exactly that error (with the trailing
newline added by the error join) and only the end-of-input token.  For
string content with multi-byte characters the lexer instead panics
mid-string (see the counterexample). -/
theorem claim_C9_unterminated :
    (∀ st : Lexer, (∀ c ∈ st.source, c.utf8Size = 1) →
      st.current ≤ st.source.length →
      (∀ c ∈ st.source.drop st.current, c ≠ '"') →
      ∃ st1, Lexer.stringLit st = Except.ok (st1, some "Unterminated string.")
        ∧ st1.tokens = st.tokens)
    ∧ scan_tokens "\"abc".data =
        Except.ok (⟨"\"abc".data, [⟨TokenType.Eof, "", none, 1⟩], 0, 4, 1⟩,
          Except.error "Unterminated string.\n") := by
  constructor
  · intro st hA hcur hq
    have hlen : srcLen st.source = st.source.length := srcLen_ascii _ hA
    obtain ⟨st1, hrun, hsrc, htks, _, hcur1⟩ :=
      stringLoop_no_quote (srcLen st.source + 2) st hA hcur hq (by omega)
    refine ⟨st1, ?_, htks⟩
    have hend1 : st1.is_at_end = true := by
      simp [Lexer.is_at_end, hsrc, hlen, hcur1]
    simp only [Lexer.stringLit, hrun]
    rw [if_pos hend1]
  · rfl

/-- Witness for claim C9: the lexer state just after consuming the
opening quote of the two-character source `"\"a"`. -/
theorem claim_C9_witness :
    ∃ st1, Lexer.stringLit ⟨"\"a".data, [], 0, 1, 1⟩ =
      Except.ok (st1, some "Unterminated string.") ∧ st1.tokens = [] :=
  claim_C9_unterminated.1 ⟨"\"a".data, [], 0, 1, 1⟩ (by decide) (by decide) (by decide)

/-- Claim C9, counterexample: the original claim covers arbitrary string
content, but on the source `"\"é"` — an unterminated string whose
content is a multi-byte character — the lexer panics inside the string
loop (the character cursor is compared against the byte length, so
`advance` reads past the end of `chars()`) instead of recording the
"Unterminated string." error. -/
theorem claim_C9_cex :
    scan_tokens "\"é".data = Except.error ⟨"\"é".data, [], 0, 2, 1⟩ := rfl

/-! ## Lemmas for identifier/keyword scanning (single-byte sources) -/

theorem dropBytes_ascii : ∀ (s : List Char) (n : Nat), (∀ c ∈ s, c.utf8Size = 1) →
    dropBytes s n = if n ≤ s.length then some (s.drop n) else none := by
  intro s
  induction s with
  | nil =>
    intro n _
    cases n with
    | zero => simp [dropBytes]
    | succ k => simp [dropBytes]
  | cons c cs ih =>
    intro n h
    have hc : c.utf8Size = 1 := h c (List.mem_cons_self c cs)
    cases n with
    | zero => simp [dropBytes]
    | succ k =>
      have := ih k (fun d hd => h d (List.mem_cons_of_mem c hd))
      simp [dropBytes, hc, this]

theorem takeBytes_ascii : ∀ (s : List Char) (n : Nat), (∀ c ∈ s, c.utf8Size = 1) →
    takeBytes s n = if n ≤ s.length then some (s.take n) else none := by
  intro s
  induction s with
  | nil =>
    intro n _
    cases n with
    | zero => simp [takeBytes]
    | succ k => simp [takeBytes]
  | cons c cs ih =>
    intro n h
    have hc : c.utf8Size = 1 := h c (List.mem_cons_self c cs)
    cases n with
    | zero => simp [takeBytes]
    | succ k =>
      have := ih k (fun d hd => h d (List.mem_cons_of_mem c hd))
      by_cases hk : k ≤ cs.length
      · simp [takeBytes, hc, this, hk]
      · simp [takeBytes, hc, this, hk]

theorem byteSlice_ascii (s : List Char) (a b : Nat) (hA : ∀ c ∈ s, c.utf8Size = 1) :
    byteSlice s a b =
      if a ≤ b ∧ b ≤ s.length then some ((s.drop a).take (b - a)) else none := by
  rw [byteSlice]
  by_cases hab : a ≤ b
  · rw [if_pos hab, dropBytes_ascii s a hA]
    by_cases ha : a ≤ s.length
    · rw [if_pos ha]
      show takeBytes (s.drop a) (b - a) =
        if a ≤ b ∧ b ≤ s.length then some ((s.drop a).take (b - a)) else none
      rw [takeBytes_ascii _ _ (fun d hd => hA d (List.drop_subset a s hd))]
      by_cases hb : b ≤ s.length
      · rw [if_pos (by simp [List.length_drop]; omega), if_pos ⟨hab, hb⟩]
      · rw [if_neg (by simp [List.length_drop]; omega), if_neg (by tauto)]
    · rw [if_neg (by omega), if_neg (by omega)]
  · rw [if_neg hab, if_neg (by tauto)]

theorem alpha_ne (c l : Char) (h : is_alphabetical c = true)
    (hl : is_alphabetical l = false) : c ≠ l := by
  intro he
  rw [he, hl] at h
  cases h

theorem alpha_not_digit (c : Char) (h : is_alphabetical c = true) : is_digit c = false := by
  simp [is_alphabetical] at h
  simp [is_digit]
  omega

/-- The identifier loop consumes everything when every remaining
character is alphanumeric (single-byte source). -/
theorem identLoop_all_alnum : ∀ (f : Nat) (st : Lexer),
    (∀ c ∈ st.source, c.utf8Size = 1) →
    st.current ≤ st.source.length →
    (∀ c ∈ st.source.drop st.current, is_alpha_numeric c = true) →
    st.source.length - st.current < f →
    identLoop f st = Except.ok ⟨st.source, st.tokens, st.start, st.source.length, st.line⟩ := by
  intro f
  induction f with
  | zero => intro st _ _ _ hf; omega
  | succ f ih =>
    intro st hA hcur hal hf
    obtain ⟨src, tks, sst, cur, lin⟩ := st
    simp only at hA hcur hal hf
    have hlen : srcLen src = src.length := srcLen_ascii src hA
    by_cases hend : src.length ≤ cur
    · have heq : cur = src.length := by omega
      have hpeek : Lexer.peek ⟨src, tks, sst, cur, lin⟩ = Except.ok nullChar := by
        simp [Lexer.peek, Lexer.is_at_end, hlen, hend]
      simp only [identLoop, hpeek]
      rw [if_neg (by decide : ¬ (is_alpha_numeric nullChar = true)), heq]
    · have hlt : cur < src.length := by omega
      obtain ⟨c, hc⟩ : ∃ c, src[cur]? = some c :=
        ⟨src.get ⟨cur, hlt⟩, List.getElem?_eq_getElem hlt⟩
      have hnend : Lexer.is_at_end ⟨src, tks, sst, cur, lin⟩ = false := by
        simp [Lexer.is_at_end, hlen]; omega
      have hpeek : Lexer.peek ⟨src, tks, sst, cur, lin⟩ = Except.ok c := by
        simp [Lexer.peek, hnend, hc]
      have hmem : c ∈ src.drop cur := by
        rw [List.mem_iff_getElem?]
        exact ⟨0, by rw [List.getElem?_drop]; simpa using hc⟩
      have hcal : is_alpha_numeric c = true := hal c hmem
      have hadv : Lexer.advance ⟨src, tks, sst, cur, lin⟩ =
          Except.ok (c, ⟨src, tks, sst, cur + 1, lin⟩) := by
        simp [Lexer.advance, hc]
      have hal1 : ∀ d ∈ src.drop (cur + 1), is_alpha_numeric d = true := by
        intro d hd
        refine hal d ?_
        have hdd : src.drop (cur + 1) = (src.drop cur).drop 1 := by rw [List.drop_drop]
        rw [hdd] at hd
        exact List.drop_subset 1 _ hd
      simp only [identLoop, hpeek]
      rw [if_pos hcal]
      simp only [hadv]
      exact ih ⟨src, tks, sst, cur + 1, lin⟩ hA (by show cur + 1 ≤ src.length; omega) hal1
        (by show src.length - (cur + 1) < f; omega)

/-- In `scan_token`, a character satisfying `is_alphabetical` falls
through every earlier branch into the `identifier` call. -/
theorem scan_token_alpha_branch (st : Lexer) (c : Char) (st1 : Lexer)
    (hadv : st.advance = Except.ok (c, st1)) (halpha : is_alphabetical c = true) :
    st.scan_token =
      match st1.identifier with
      | Except.error p => Except.error p
      | Except.ok st2 => Except.ok (st2, none) := by
  have hdig : is_digit c = false := alpha_not_digit c halpha
  simp only [Lexer.scan_token, hadv]
  rw [if_neg (alpha_ne c '(' halpha (by decide))]
  rw [if_neg (alpha_ne c ')' halpha (by decide))]
  rw [if_neg (alpha_ne c '{' halpha (by decide))]
  rw [if_neg (alpha_ne c '}' halpha (by decide))]
  rw [if_neg (alpha_ne c ',' halpha (by decide))]
  rw [if_neg (alpha_ne c '.' halpha (by decide))]
  rw [if_neg (alpha_ne c '-' halpha (by decide))]
  rw [if_neg (alpha_ne c '+' halpha (by decide))]
  rw [if_neg (alpha_ne c ';' halpha (by decide))]
  rw [if_neg (alpha_ne c '*' halpha (by decide))]
  rw [if_neg (alpha_ne c '!' halpha (by decide))]
  rw [if_neg (alpha_ne c '=' halpha (by decide))]
  rw [if_neg (alpha_ne c '<' halpha (by decide))]
  rw [if_neg (alpha_ne c '>' halpha (by decide))]
  rw [if_neg (alpha_ne c '/' halpha (by decide))]
  rw [if_neg (show ¬ (c = ' ' ∨ c = '\r' ∨ c = '\t') by
    simp [alpha_ne c ' ' halpha (by decide), alpha_ne c '\r' halpha (by decide),
      alpha_ne c '\t' halpha (by decide)])]
  rw [if_neg (alpha_ne c '\n' halpha (by decide))]
  rw [if_neg (alpha_ne c '"' halpha (by decide))]
  rw [if_neg (by simp [hdig] : ¬ (is_digit c = true))]
  rw [if_pos halpha]

/-- Claim C2: keyword lookup is exact-match and case-sensitive — the
table spellings `"True"`, `"False"`, `"Nil"` scan to their boolean/nil
keyword tokens, and every other word (any other casing of these, or any
word not in the keyword table: alphabetic start, alphanumeric
continuation, single-byte characters, failing the table lookup) scans to
an `Identifier` token carrying the word itself. -/
theorem claim_C2_keyword_case :
    (scansAs "True" TokenType.True = true ∧ scansAs "False" TokenType.False = true
      ∧ scansAs "Nil" TokenType.Nil = true)
    ∧ (∀ (c : Char) (cs : List Char),
        (∀ d ∈ c :: cs, d.utf8Size = 1) →
        is_alphabetical c = true →
        (∀ d ∈ cs, is_alpha_numeric d = true) →
        List.lookup (String.mk (c :: cs)) get_keywords = none →
        scan_tokens (c :: cs) =
          Except.ok (⟨c :: cs,
            [⟨TokenType.Identifier, String.mk (c :: cs), none, 1⟩,
             ⟨TokenType.Eof, "", none, 1⟩], 0, (c :: cs).length, 1⟩,
            Except.ok [⟨TokenType.Identifier, String.mk (c :: cs), none, 1⟩,
                       ⟨TokenType.Eof, "", none, 1⟩])) := by
  constructor
  · exact ⟨by decide, by decide, by decide⟩
  · intro c cs hA halpha halnum hlk
    have hlen : srcLen (c :: cs) = (c :: cs).length := srcLen_ascii _ hA
    have hadv : Lexer.advance ⟨c :: cs, [], 0, 0, 1⟩ =
        Except.ok (c, ⟨c :: cs, [], 0, 1, 1⟩) := by
      simp [Lexer.advance]
    have hbranch := scan_token_alpha_branch ⟨c :: cs, [], 0, 0, 1⟩ c
      ⟨c :: cs, [], 0, 1, 1⟩ hadv halpha
    have hloop := identLoop_all_alnum (srcLen (c :: cs) + 2) ⟨c :: cs, [], 0, 1, 1⟩ hA
      (by show (1 : Nat) ≤ (c :: cs).length; simp)
      (by show ∀ d ∈ (c :: cs).drop 1, is_alpha_numeric d = true; simpa using halnum)
      (by show (c :: cs).length - 1 < srcLen (c :: cs) + 2; omega)
    have hbs : byteSlice (c :: cs) 0 (cs.length + 1) = some (c :: cs) := by
      rw [byteSlice_ascii _ _ _ hA]
      simp
    have hident : Lexer.identifier ⟨c :: cs, [], 0, 1, 1⟩ =
        Except.ok ⟨c :: cs, [⟨TokenType.Identifier, String.mk (c :: cs), none, 1⟩], 0,
          (c :: cs).length, 1⟩ := by
      simp only [Lexer.identifier, hloop, List.length_cons, hbs, hlk]
      simp [Lexer.add_token, Lexer.add_token_literal, hbs]
    have hstep1 : Lexer.scan_token ⟨c :: cs, [], 0, 0, 1⟩ =
        Except.ok (⟨c :: cs, [⟨TokenType.Identifier, String.mk (c :: cs), none, 1⟩], 0,
          (c :: cs).length, 1⟩, none) := by
      rw [hbranch, hident]
    have hnend0 : Lexer.is_at_end ⟨c :: cs, [], 0, 0, 1⟩ = false := by
      simp [Lexer.is_at_end, hlen]
    have hend2 : Lexer.is_at_end ⟨c :: cs,
        [⟨TokenType.Identifier, String.mk (c :: cs), none, 1⟩], 0,
        (c :: cs).length, 1⟩ = true := by
      simp [Lexer.is_at_end, hlen]
    have hloop2 : scanLoop (srcLen (c :: cs) + 1) (Lexer.mkNew (c :: cs)) [] =
        Except.ok (⟨c :: cs, [⟨TokenType.Identifier, String.mk (c :: cs), none, 1⟩], 0,
          (c :: cs).length, 1⟩, []) := by
      rw [hlen]
      show scanLoop (cs.length + 1 + 1) ⟨c :: cs, [], 0, 0, 1⟩ [] = _
      rw [scanLoop]
      simp only [hnend0, Bool.false_eq_true, if_false, hstep1]
      rw [scanLoop]
      simp only [hend2, if_true]
    rw [scan_tokens, hloop2]
    simp [pushEof]

/-- Witness for claim C2 at the differently-cased word `"true"` (not in
the keyword table, hence an identifier). -/
theorem claim_C2_witness :
    scan_tokens ('t' :: "rue".data) =
      Except.ok (⟨'t' :: "rue".data,
        [⟨TokenType.Identifier, String.mk ('t' :: "rue".data), none, 1⟩,
         ⟨TokenType.Eof, "", none, 1⟩], 0, ('t' :: "rue".data).length, 1⟩,
        Except.ok [⟨TokenType.Identifier, String.mk ('t' :: "rue".data), none, 1⟩,
                   ⟨TokenType.Eof, "", none, 1⟩]) :=
  claim_C2_keyword_case.2 't' "rue".data (by decide) (by decide) (by decide) (by decide)

/-! ## Lemmas for the lexeme-slice invariant (single-byte sources) -/

/-- The tokens `ts` carry, in input order, pairwise-disjoint scan
windows starting at or after `lo`: each token's lexeme is verbatim the
contiguous slice of `s` at its own window, and every further token's
window begins at or after the previous window's end. -/
def ScanWindows (s : List Char) : Nat → List Token → Prop
  | _, [] => True
  | lo, t :: ts => ∃ a b, lo ≤ a ∧ a ≤ b ∧ b ≤ s.length
      ∧ t.lexeme.data = (s.drop a).take (b - a) ∧ ScanWindows s b ts

theorem scanWindows_mono (s : List Char) (lo lo2 : Nat) (ts : List Token)
    (h : lo ≤ lo2) (hw : ScanWindows s lo2 ts) : ScanWindows s lo ts := by
  cases ts with
  | nil => exact True.intro
  | cons t ts =>
    obtain ⟨a, b, h1, h2, h3, h4, h5⟩ := hw
    exact ⟨a, b, by omega, h2, h3, h4, h5⟩

theorem scanWindows_push_empty (s : List Char) (t : Token) (ht : t.lexeme.data = []) :
    ∀ (ts : List Token) (lo : Nat), lo ≤ s.length → ScanWindows s lo ts →
    ScanWindows s lo (ts ++ [t]) := by
  intro ts
  induction ts with
  | nil =>
    intro lo hlo _
    exact ⟨s.length, s.length, hlo, le_refl _, le_refl _, by simp [ht], True.intro⟩
  | cons u ts ih =>
    intro lo hlo hw
    obtain ⟨a, b, h1, h2, h3, h4, h5⟩ := hw
    exact ⟨a, b, h1, h2, h3, h4, ih b h3 h5⟩

theorem peek_ascii (src : List Char) (tks : List Token) (sst cur lin : Nat)
    (hA : ∀ c ∈ src, c.utf8Size = 1) (hcur : cur ≤ src.length) :
    ∃ c', Lexer.peek ⟨src, tks, sst, cur, lin⟩ = Except.ok c'
      ∧ (src.length ≤ cur → c' = nullChar)
      ∧ (∀ h : cur < src.length, c' = src.get ⟨cur, h⟩) := by
  by_cases hend : src.length ≤ cur
  · refine ⟨nullChar, ?_, fun _ => rfl, fun h => absurd h (by omega)⟩
    simp [Lexer.peek, Lexer.is_at_end, srcLen_ascii src hA, hend]
  · have hlt : cur < src.length := by omega
    refine ⟨src.get ⟨cur, hlt⟩, ?_, fun h => absurd h (by omega), fun _ => rfl⟩
    have hnend : Lexer.is_at_end ⟨src, tks, sst, cur, lin⟩ = false := by
      simp [Lexer.is_at_end, srcLen_ascii src hA]; omega
    simp [Lexer.peek, hnend, List.getElem?_eq_getElem hlt, List.get_eq_getElem]

theorem add_token_ascii (src : List Char) (tks : List Token) (sst cur lin : Nat)
    (ty : TokenType) (lit : Option TokenLiteralValue)
    (hA : ∀ c ∈ src, c.utf8Size = 1) (h1 : sst ≤ cur) (h2 : cur ≤ src.length) :
    Lexer.add_token_literal ⟨src, tks, sst, cur, lin⟩ ty lit =
      Except.ok ⟨src,
        tks ++ [⟨ty, String.mk ((src.drop sst).take (cur - sst)), lit, lin⟩],
        sst, cur, lin⟩ := by
  simp only [Lexer.add_token_literal, byteSlice_ascii src sst cur hA]
  rw [if_pos ⟨h1, h2⟩]

theorem char_match_ascii (src : List Char) (tks : List Token) (sst cur lin : Nat) (c : Char)
    (hA : ∀ c ∈ src, c.utf8Size = 1) (hcur : cur ≤ src.length) :
    ∃ b q, Lexer.char_match ⟨src, tks, sst, cur, lin⟩ c = Except.ok (b, ⟨src, tks, sst, q, lin⟩)
      ∧ cur ≤ q ∧ q ≤ src.length := by
  by_cases hend : src.length ≤ cur
  · have ha : Lexer.is_at_end ⟨src, tks, sst, cur, lin⟩ = true := by
      simp [Lexer.is_at_end, srcLen_ascii src hA, hend]
    refine ⟨false, cur, ?_, le_refl cur, hcur⟩
    simp [Lexer.char_match, ha]
  · have hlt : cur < src.length := by omega
    have ha : Lexer.is_at_end ⟨src, tks, sst, cur, lin⟩ = false := by
      simp [Lexer.is_at_end, srcLen_ascii src hA]; omega
    by_cases hch : src.get ⟨cur, hlt⟩ = c
    · refine ⟨true, cur + 1, ?_, by omega, by omega⟩
      simp [Lexer.char_match, ha, List.getElem?_eq_getElem hlt, List.get_eq_getElem] at hch ⊢
      simp [hch]
    · refine ⟨false, cur, ?_, le_refl cur, hcur⟩
      simp [Lexer.char_match, ha, List.getElem?_eq_getElem hlt, List.get_eq_getElem] at hch ⊢
      simp [hch]

theorem identLoop_ascii_ok : ∀ (f : Nat) (st : Lexer),
    (∀ c ∈ st.source, c.utf8Size = 1) → st.current ≤ st.source.length →
    st.source.length - st.current < f →
    ∃ q, identLoop f st = Except.ok ⟨st.source, st.tokens, st.start, q, st.line⟩
      ∧ st.current ≤ q ∧ q ≤ st.source.length := by
  intro f
  induction f with
  | zero => intro st _ _ hf; omega
  | succ f ih =>
    intro st hA hcur hf
    obtain ⟨src, tks, sst, cur, lin⟩ := st
    simp only at hA hcur hf ⊢
    obtain ⟨c, hpeek, hnul, hval⟩ := peek_ascii src tks sst cur lin hA hcur
    by_cases hal : is_alpha_numeric c = true
    · have hlt : cur < src.length := by
        by_contra hcon
        rw [hnul (by omega)] at hal
        cases hal
      have hadv : Lexer.advance ⟨src, tks, sst, cur, lin⟩ =
          Except.ok (c, ⟨src, tks, sst, cur + 1, lin⟩) := by
        have hcv : src[cur]? = some c := by
          rw [List.getElem?_eq_getElem hlt, hval hlt, List.get_eq_getElem]
        simp [Lexer.advance, hcv]
      obtain ⟨q, hrun, hq1, hq2⟩ := ih ⟨src, tks, sst, cur + 1, lin⟩ hA
        (by show cur + 1 ≤ src.length; omega) (by show src.length - (cur + 1) < f; omega)
      have hq1a : cur + 1 ≤ q := hq1
      have hq2a : q ≤ src.length := hq2
      refine ⟨q, ?_, by omega, hq2a⟩
      simp only [identLoop, hpeek]
      rw [if_pos hal]
      simp only [hadv]
      exact hrun
    · refine ⟨cur, ?_, le_refl cur, hcur⟩
      simp only [identLoop, hpeek]
      rw [if_neg hal]

theorem numLoop_ascii_ok : ∀ (f : Nat) (st : Lexer),
    (∀ c ∈ st.source, c.utf8Size = 1) → st.current ≤ st.source.length →
    st.source.length - st.current < f →
    ∃ q, numLoop f st = Except.ok ⟨st.source, st.tokens, st.start, q, st.line⟩
      ∧ st.current ≤ q ∧ q ≤ st.source.length := by
  intro f
  induction f with
  | zero => intro st _ _ hf; omega
  | succ f ih =>
    intro st hA hcur hf
    obtain ⟨src, tks, sst, cur, lin⟩ := st
    simp only at hA hcur hf ⊢
    obtain ⟨c, hpeek, hnul, hval⟩ := peek_ascii src tks sst cur lin hA hcur
    by_cases hal : is_digit c = true
    · have hlt : cur < src.length := by
        by_contra hcon
        rw [hnul (by omega)] at hal
        cases hal
      have hadv : Lexer.advance ⟨src, tks, sst, cur, lin⟩ =
          Except.ok (c, ⟨src, tks, sst, cur + 1, lin⟩) := by
        have hcv : src[cur]? = some c := by
          rw [List.getElem?_eq_getElem hlt, hval hlt, List.get_eq_getElem]
        simp [Lexer.advance, hcv]
      obtain ⟨q, hrun, hq1, hq2⟩ := ih ⟨src, tks, sst, cur + 1, lin⟩ hA
        (by show cur + 1 ≤ src.length; omega) (by show src.length - (cur + 1) < f; omega)
      have hq1a : cur + 1 ≤ q := hq1
      have hq2a : q ≤ src.length := hq2
      refine ⟨q, ?_, by omega, hq2a⟩
      simp only [numLoop, hpeek]
      rw [if_pos hal]
      simp only [hadv]
      exact hrun
    · refine ⟨cur, ?_, le_refl cur, hcur⟩
      simp only [numLoop, hpeek]
      rw [if_neg hal]

theorem commentLoop_ascii_ok : ∀ (f : Nat) (st : Lexer),
    (∀ c ∈ st.source, c.utf8Size = 1) → st.current ≤ st.source.length →
    st.source.length - st.current < f →
    ∃ q, commentLoop f st = Except.ok ⟨st.source, st.tokens, st.start, q, st.line⟩
      ∧ st.current ≤ q ∧ q ≤ st.source.length := by
  intro f
  induction f with
  | zero => intro st _ _ hf; omega
  | succ f ih =>
    intro st hA hcur hf
    obtain ⟨src, tks, sst, cur, lin⟩ := st
    simp only at hA hcur hf ⊢
    obtain ⟨c, hpeek, hnul, hval⟩ := peek_ascii src tks sst cur lin hA hcur
    by_cases hstop : c = '\n' ∨ (Lexer.is_at_end ⟨src, tks, sst, cur, lin⟩ : Bool)
    · refine ⟨cur, ?_, le_refl cur, hcur⟩
      simp only [commentLoop, hpeek]
      rw [if_pos hstop]
    · have hlt : cur < src.length := by
        by_contra hcon
        refine hstop (Or.inr ?_)
        simp [Lexer.is_at_end, srcLen_ascii src hA]; omega
      have hadv : Lexer.advance ⟨src, tks, sst, cur, lin⟩ =
          Except.ok (c, ⟨src, tks, sst, cur + 1, lin⟩) := by
        have hcv : src[cur]? = some c := by
          rw [List.getElem?_eq_getElem hlt, hval hlt, List.get_eq_getElem]
        simp [Lexer.advance, hcv]
      obtain ⟨q, hrun, hq1, hq2⟩ := ih ⟨src, tks, sst, cur + 1, lin⟩ hA
        (by show cur + 1 ≤ src.length; omega) (by show src.length - (cur + 1) < f; omega)
      have hq1a : cur + 1 ≤ q := hq1
      have hq2a : q ≤ src.length := hq2
      refine ⟨q, ?_, by omega, hq2a⟩
      simp only [commentLoop, hpeek]
      rw [if_neg hstop]
      simp only [hadv]
      exact hrun

theorem stringLoop_ascii_ok : ∀ (f : Nat) (st : Lexer),
    (∀ c ∈ st.source, c.utf8Size = 1) → st.current ≤ st.source.length →
    st.source.length - st.current < f →
    ∃ q l', stringLoop f st = Except.ok ⟨st.source, st.tokens, st.start, q, l'⟩
      ∧ st.current ≤ q ∧ q ≤ st.source.length := by
  intro f
  induction f with
  | zero => intro st _ _ hf; omega
  | succ f ih =>
    intro st hA hcur hf
    obtain ⟨src, tks, sst, cur, lin⟩ := st
    simp only at hA hcur hf ⊢
    obtain ⟨c, hpeek, hnul, hval⟩ := peek_ascii src tks sst cur lin hA hcur
    by_cases hgo : c ≠ '"' ∧ ¬ (Lexer.is_at_end ⟨src, tks, sst, cur, lin⟩ : Bool)
    · have hlt : cur < src.length := by
        by_contra hcon
        refine hgo.2 ?_
        simp [Lexer.is_at_end, srcLen_ascii src hA]; omega
      simp only [stringLoop, hpeek]
      rw [if_pos hgo]
      by_cases hnl : c = '\n'
      · rw [if_pos hnl]
        have hadv : Lexer.advance ⟨src, tks, sst, cur, lin + 1⟩ =
            Except.ok (c, ⟨src, tks, sst, cur + 1, lin + 1⟩) := by
          have hcv : src[cur]? = some c := by
            rw [List.getElem?_eq_getElem hlt, hval hlt, List.get_eq_getElem]
          simp [Lexer.advance, hcv]
        simp only [hadv]
        obtain ⟨q, l', hrun, hq1, hq2⟩ := ih ⟨src, tks, sst, cur + 1, lin + 1⟩ hA
          (by show cur + 1 ≤ src.length; omega) (by show src.length - (cur + 1) < f; omega)
        have hq1a : cur + 1 ≤ q := hq1
        have hq2a : q ≤ src.length := hq2
        exact ⟨q, l', hrun, by omega, hq2a⟩
      · rw [if_neg hnl]
        have hadv : Lexer.advance ⟨src, tks, sst, cur, lin⟩ =
            Except.ok (c, ⟨src, tks, sst, cur + 1, lin⟩) := by
          have hcv : src[cur]? = some c := by
            rw [List.getElem?_eq_getElem hlt, hval hlt, List.get_eq_getElem]
          simp [Lexer.advance, hcv]
        simp only [hadv]
        obtain ⟨q, l', hrun, hq1, hq2⟩ := ih ⟨src, tks, sst, cur + 1, lin⟩ hA
          (by show cur + 1 ≤ src.length; omega) (by show src.length - (cur + 1) < f; omega)
        have hq1a : cur + 1 ≤ q := hq1
        have hq2a : q ≤ src.length := hq2
        exact ⟨q, l', hrun, by omega, hq2a⟩
    · refine ⟨cur, lin, ?_, le_refl cur, hcur⟩
      simp only [stringLoop, hpeek]
      rw [if_neg hgo]

theorem peek_next_ascii (src : List Char) (tks : List Token) (sst cur lin : Nat)
    (hA : ∀ c ∈ src, c.utf8Size = 1) :
    ∃ d, Lexer.peek_next ⟨src, tks, sst, cur, lin⟩ = Except.ok d := by
  by_cases hend : srcLen src ≤ cur + 1
  · exact ⟨nullChar, by simp [Lexer.peek_next, hend]⟩
  · have hlt : cur + 1 < src.length := by
      have := srcLen_ascii src hA; omega
    refine ⟨src.get ⟨cur + 1, hlt⟩, ?_⟩
    simp [Lexer.peek_next, hend, List.getElem?_eq_getElem hlt, List.get_eq_getElem]


theorem identifier_ascii (src : List Char) (tks : List Token) (sst cur lin : Nat)
    (hA : ∀ c ∈ src, c.utf8Size = 1) (hss : sst ≤ cur) (hcur : cur ≤ src.length) :
    ∃ st1, Lexer.identifier ⟨src, tks, sst, cur, lin⟩ = Except.ok st1
      ∧ st1.source = src ∧ st1.start = sst ∧ cur ≤ st1.current ∧ st1.current ≤ src.length
      ∧ (st1.tokens = tks ∨ ∃ tok, st1.tokens = tks ++ [tok]
          ∧ tok.lexeme.data = (src.drop sst).take (st1.current - sst)) := by
  obtain ⟨q, hrun, hq1, hq2⟩ := identLoop_ascii_ok (srcLen src + 2) ⟨src, tks, sst, cur, lin⟩
    hA hcur (by have := srcLen_ascii src hA; simp only; omega)
  have hq1a : cur ≤ q := hq1
  have hq2a : q ≤ src.length := hq2
  have hbs : byteSlice src sst q = some ((src.drop sst).take (q - sst)) := by
    rw [byteSlice_ascii src sst q hA]
    rw [if_pos ⟨by omega, hq2a⟩]
  simp only [Lexer.identifier, hrun, hbs]
  cases hlk : List.lookup (String.mk ((src.drop sst).take (q - sst))) get_keywords with
  | some ty =>
    have htok2 := add_token_ascii src tks sst q lin ty none hA (by omega) hq2a
    refine ⟨⟨src, tks ++ [⟨ty, String.mk ((src.drop sst).take (q - sst)), none, lin⟩],
        sst, q, lin⟩, ?_, rfl, rfl, hq1a, hq2a,
      Or.inr ⟨⟨ty, String.mk ((src.drop sst).take (q - sst)), none, lin⟩, rfl, rfl⟩⟩
    simp only [Lexer.add_token, htok2]
  | none =>
    have htok := add_token_ascii src tks sst q lin TokenType.Identifier none hA (by omega) hq2a
    refine ⟨⟨src, tks ++ [⟨TokenType.Identifier, String.mk ((src.drop sst).take (q - sst)),
        none, lin⟩], sst, q, lin⟩, ?_, rfl, rfl, hq1a, hq2a,
      Or.inr ⟨⟨TokenType.Identifier, String.mk ((src.drop sst).take (q - sst)),
        none, lin⟩, rfl, rfl⟩⟩
    simp only [Lexer.add_token, htok]

theorem stringLit_ascii (src : List Char) (tks : List Token) (sst cur lin : Nat)
    (hA : ∀ c ∈ src, c.utf8Size = 1) (hss : sst + 1 ≤ cur) (hcur : cur ≤ src.length) :
    ∃ st1 eOpt, Lexer.stringLit ⟨src, tks, sst, cur, lin⟩ = Except.ok (st1, eOpt)
      ∧ st1.source = src ∧ st1.start = sst ∧ cur ≤ st1.current ∧ st1.current ≤ src.length
      ∧ (st1.tokens = tks ∨ ∃ tok, st1.tokens = tks ++ [tok]
          ∧ tok.lexeme.data = (src.drop sst).take (st1.current - sst)) := by
  obtain ⟨q, l', hrun, hq1, hq2⟩ := stringLoop_ascii_ok (srcLen src + 2) ⟨src, tks, sst, cur, lin⟩
    hA hcur (by have := srcLen_ascii src hA; simp only; omega)
  have hq1a : cur ≤ q := hq1
  have hq2a : q ≤ src.length := hq2
  simp only [Lexer.stringLit, hrun]
  by_cases hend : src.length ≤ q
  · have he : Lexer.is_at_end ⟨src, tks, sst, q, l'⟩ = true := by
      simp [Lexer.is_at_end, srcLen_ascii src hA, hend]
    rw [if_pos (by simp [he])]
    exact ⟨⟨src, tks, sst, q, l'⟩, some "Unterminated string.", rfl, rfl, rfl, hq1a, hq2a,
      Or.inl rfl⟩
  · have hlt : q < src.length := by omega
    have he : Lexer.is_at_end ⟨src, tks, sst, q, l'⟩ = false := by
      simp [Lexer.is_at_end, srcLen_ascii src hA]; omega
    rw [if_neg (by simp [he])]
    have hadv : Lexer.advance ⟨src, tks, sst, q, l'⟩ =
        Except.ok (src.get ⟨q, hlt⟩, ⟨src, tks, sst, q + 1, l'⟩) := by
      simp [Lexer.advance, List.getElem?_eq_getElem hlt, List.get_eq_getElem]
    simp only [hadv]
    have hbs1 : byteSlice src (sst + 1) (q + 1 - 1) =
        some ((src.drop (sst + 1)).take (q - (sst + 1))) := by
      rw [show q + 1 - 1 = q by omega, byteSlice_ascii src (sst + 1) q hA]
      rw [if_pos ⟨by omega, hq2a⟩]
    simp only [hbs1]
    have htok := add_token_ascii src tks sst (q + 1) l' TokenType.StringLiteral
      (some (TokenLiteralValue.StringValue
        (String.mk ((src.drop (sst + 1)).take (q - (sst + 1)))))) hA (by omega) (by omega)
    simp only [htok]
    exact ⟨⟨src, tks ++ [⟨TokenType.StringLiteral, String.mk ((src.drop sst).take (q + 1 - sst)),
        some (TokenLiteralValue.StringValue
          (String.mk ((src.drop (sst + 1)).take (q - (sst + 1))))), l'⟩], sst, q + 1, l'⟩,
      none, rfl, rfl, rfl, by show cur ≤ q + 1; omega, by show q + 1 ≤ src.length; omega,
      Or.inr ⟨⟨TokenType.StringLiteral, String.mk ((src.drop sst).take (q + 1 - sst)),
        some (TokenLiteralValue.StringValue
          (String.mk ((src.drop (sst + 1)).take (q - (sst + 1))))), l'⟩, rfl, rfl⟩⟩

theorem number_ascii (src : List Char) (tks : List Token) (sst cur lin : Nat)
    (hA : ∀ c ∈ src, c.utf8Size = 1) (hss : sst ≤ cur) (hcur : cur ≤ src.length) :
    ∃ st1 eOpt, Lexer.number ⟨src, tks, sst, cur, lin⟩ = Except.ok (st1, eOpt)
      ∧ st1.source = src ∧ st1.start = sst ∧ cur ≤ st1.current ∧ st1.current ≤ src.length
      ∧ (st1.tokens = tks ∨ ∃ tok, st1.tokens = tks ++ [tok]
          ∧ tok.lexeme.data = (src.drop sst).take (st1.current - sst)) := by
  obtain ⟨q1, hrun1, hq11, hq12⟩ := numLoop_ascii_ok (srcLen src + 2) ⟨src, tks, sst, cur, lin⟩
    hA hcur (by have := srcLen_ascii src hA; simp only; omega)
  have hq11a : cur ≤ q1 := hq11
  have hq12a : q1 ≤ src.length := hq12
  have hAfter : ∃ q3, (match Lexer.peek ⟨src, tks, sst, q1, lin⟩ with
      | Except.error p => Except.error p
      | Except.ok c =>
        if c = '.' then
          match Lexer.peek_next ⟨src, tks, sst, q1, lin⟩ with
          | Except.error p => Except.error p
          | Except.ok d =>
            if is_digit d then
              match Lexer.advance ⟨src, tks, sst, q1, lin⟩ with
              | Except.error p => Except.error p
              | Except.ok (_, st2) => numLoop (srcLen st2.source + 2) st2
            else Except.ok ⟨src, tks, sst, q1, lin⟩
        else Except.ok ⟨src, tks, sst, q1, lin⟩) = Except.ok ⟨src, tks, sst, q3, lin⟩
      ∧ cur ≤ q3 ∧ q3 ≤ src.length := by
    obtain ⟨c, hpeek, hnul, hval⟩ := peek_ascii src tks sst q1 lin hA hq12a
    simp only [hpeek]
    by_cases hdot : c = '.'
    · rw [if_pos hdot]
      obtain ⟨d, hpn⟩ := peek_next_ascii src tks sst q1 lin hA
      simp only [hpn]
      by_cases hdd : is_digit d = true
      · rw [if_pos hdd]
        have hlt : q1 < src.length := by
          by_contra hcon
          rw [hnul (by omega)] at hdot
          exact absurd hdot (by decide)
        have hadv : Lexer.advance ⟨src, tks, sst, q1, lin⟩ =
            Except.ok (src.get ⟨q1, hlt⟩, ⟨src, tks, sst, q1 + 1, lin⟩) := by
          simp [Lexer.advance, List.getElem?_eq_getElem hlt, List.get_eq_getElem]
        simp only [hadv]
        obtain ⟨q3, hrun3, hq31, hq32⟩ := numLoop_ascii_ok (srcLen src + 2)
          ⟨src, tks, sst, q1 + 1, lin⟩ hA (by show q1 + 1 ≤ src.length; omega)
          (by have := srcLen_ascii src hA; simp only; omega)
        have hq31a : q1 + 1 ≤ q3 := hq31
        have hq32a : q3 ≤ src.length := hq32
        exact ⟨q3, hrun3, by omega, hq32a⟩
      · rw [if_neg hdd]
        exact ⟨q1, rfl, hq11a, hq12a⟩
    · rw [if_neg hdot]
      exact ⟨q1, rfl, hq11a, hq12a⟩
  obtain ⟨q3, hAD, hq31, hq32⟩ := hAfter
  have hbs : byteSlice src sst q3 = some ((src.drop sst).take (q3 - sst)) := by
    rw [byteSlice_ascii src sst q3 hA]
    rw [if_pos ⟨by omega, hq32⟩]
  simp only [Lexer.number, hrun1, hAD, hbs]
  cases hpd : parseDecimal ((src.drop sst).take (q3 - sst)) with
  | some v =>
    have htok := add_token_ascii src tks sst q3 lin TokenType.Number
      (some (TokenLiteralValue.FValue v)) hA (by omega) hq32
    simp only [htok]
    exact ⟨⟨src, tks ++ [⟨TokenType.Number, String.mk ((src.drop sst).take (q3 - sst)),
        some (TokenLiteralValue.FValue v), lin⟩], sst, q3, lin⟩,
      none, rfl, rfl, rfl, hq31, hq32,
      Or.inr ⟨⟨TokenType.Number, String.mk ((src.drop sst).take (q3 - sst)),
        some (TokenLiteralValue.FValue v), lin⟩, rfl, rfl⟩⟩
  | none =>
    exact ⟨⟨src, tks, sst, q3, lin⟩,
      some ("Could not parse number: " ++ String.mk ((src.drop sst).take (q3 - sst))),
      rfl, rfl, rfl, hq31, hq32, Or.inl rfl⟩

theorem single_char_case (src : List Char) (tks : List Token) (cur lin : Nat) (ty : TokenType)
    (hA : ∀ c ∈ src, c.utf8Size = 1) (hlt : cur < src.length) :
    ∃ (st1 : Lexer) (eOpt : Option String),
      ((match Lexer.add_token ⟨src, tks, cur, cur + 1, lin⟩ ty with
        | Except.error p => Except.error p
        | Except.ok st2 => Except.ok (st2, none)) :
          Except Lexer (Lexer × Option String)) = Except.ok (st1, eOpt)
      ∧ st1.source = src ∧ st1.start = cur ∧ cur < st1.current ∧ st1.current ≤ src.length
      ∧ (st1.tokens = tks ∨ ∃ tok, st1.tokens = tks ++ [tok]
          ∧ tok.lexeme.data = (src.drop cur).take (st1.current - cur)) := by
  have htok := add_token_ascii src tks cur (cur + 1) lin ty none hA (by omega) (by omega)
  simp only [Lexer.add_token, htok]
  exact ⟨⟨src, tks ++ [⟨ty, String.mk ((src.drop cur).take (cur + 1 - cur)), none, lin⟩],
      cur, cur + 1, lin⟩, none, rfl, rfl, rfl,
    by show cur < cur + 1; omega, by show cur + 1 ≤ src.length; omega,
    Or.inr ⟨⟨ty, String.mk ((src.drop cur).take (cur + 1 - cur)), none, lin⟩, rfl, rfl⟩⟩

theorem two_char_case (src : List Char) (tks : List Token) (cur lin : Nat)
    (tyT tyF : TokenType)
    (hA : ∀ c ∈ src, c.utf8Size = 1) (hlt : cur < src.length) :
    ∃ (st1 : Lexer) (eOpt : Option String),
      ((match Lexer.char_match ⟨src, tks, cur, cur + 1, lin⟩ '=' with
        | Except.error p => Except.error p
        | Except.ok (b, st2) =>
          match Lexer.add_token st2 (if b then tyT else tyF) with
          | Except.error p => Except.error p
          | Except.ok st3 => Except.ok (st3, none)) :
          Except Lexer (Lexer × Option String)) = Except.ok (st1, eOpt)
      ∧ st1.source = src ∧ st1.start = cur ∧ cur < st1.current ∧ st1.current ≤ src.length
      ∧ (st1.tokens = tks ∨ ∃ tok, st1.tokens = tks ++ [tok]
          ∧ tok.lexeme.data = (src.drop cur).take (st1.current - cur)) := by
  obtain ⟨b, q, hcm, hq1, hq2⟩ := char_match_ascii src tks cur (cur + 1) lin '=' hA (by omega)
  have htok := add_token_ascii src tks cur q lin (if b then tyT else tyF) none hA
    (by omega) hq2
  simp only [hcm, Lexer.add_token, htok]
  exact ⟨⟨src, tks ++ [⟨if b then tyT else tyF,
      String.mk ((src.drop cur).take (q - cur)), none, lin⟩], cur, q, lin⟩, none,
    rfl, rfl, rfl, by show cur < q; omega, hq2,
    Or.inr ⟨⟨if b then tyT else tyF, String.mk ((src.drop cur).take (q - cur)), none, lin⟩,
      rfl, rfl⟩⟩

/-- One `scan_token` step on a single-byte source: never panics, strictly
advances the cursor, stays in bounds, and appends only tokens whose
lexemes are contiguous slices of the source. -/
theorem scan_token_ascii (st : Lexer)
    (hA : ∀ c ∈ st.source, c.utf8Size = 1)
    (hstart : st.start = st.current)
    (hlt : st.current < st.source.length) :
    ∃ st1 eOpt, Lexer.scan_token st = Except.ok (st1, eOpt)
      ∧ st1.source = st.source ∧ st1.start = st.start
      ∧ st.current < st1.current ∧ st1.current ≤ st.source.length
      ∧ (st1.tokens = st.tokens ∨ ∃ tok, st1.tokens = st.tokens ++ [tok]
          ∧ tok.lexeme.data = (st.source.drop st.current).take (st1.current - st.current))
      := by
  obtain ⟨src, tks, sst, cur, lin⟩ := st
  simp only at hA hstart hlt ⊢
  subst sst
  obtain ⟨c, hc⟩ : ∃ c, src[cur]? = some c :=
    ⟨src.get ⟨cur, hlt⟩, List.getElem?_eq_getElem hlt⟩
  have hadv : Lexer.advance ⟨src, tks, cur, cur, lin⟩ =
      Except.ok (c, ⟨src, tks, cur, cur + 1, lin⟩) := by
    simp [Lexer.advance, hc]
  simp only [Lexer.scan_token, hadv]
  by_cases h1 : c = '('
  · rw [if_pos h1]; exact single_char_case src tks cur lin TokenType.LeftParen hA hlt
  rw [if_neg h1]
  by_cases h2 : c = ')'
  · rw [if_pos h2]; exact single_char_case src tks cur lin TokenType.RightParen hA hlt
  rw [if_neg h2]
  by_cases h3 : c = '{'
  · rw [if_pos h3]; exact single_char_case src tks cur lin TokenType.LeftBrace hA hlt
  rw [if_neg h3]
  by_cases h4 : c = '}'
  · rw [if_pos h4]; exact single_char_case src tks cur lin TokenType.RightBrace hA hlt
  rw [if_neg h4]
  by_cases h5 : c = ','
  · rw [if_pos h5]; exact single_char_case src tks cur lin TokenType.Comma hA hlt
  rw [if_neg h5]
  by_cases h6 : c = '.'
  · rw [if_pos h6]; exact single_char_case src tks cur lin TokenType.Dot hA hlt
  rw [if_neg h6]
  by_cases h7 : c = '-'
  · rw [if_pos h7]; exact single_char_case src tks cur lin TokenType.Minus hA hlt
  rw [if_neg h7]
  by_cases h8 : c = '+'
  · rw [if_pos h8]; exact single_char_case src tks cur lin TokenType.Plus hA hlt
  rw [if_neg h8]
  by_cases h9 : c = ';'
  · rw [if_pos h9]; exact single_char_case src tks cur lin TokenType.SemiColon hA hlt
  rw [if_neg h9]
  by_cases h10 : c = '*'
  · rw [if_pos h10]; exact single_char_case src tks cur lin TokenType.Star hA hlt
  rw [if_neg h10]
  by_cases h11 : c = '!'
  · rw [if_pos h11]
    exact two_char_case src tks cur lin TokenType.BangEqual TokenType.Bang hA hlt
  rw [if_neg h11]
  by_cases h12 : c = '='
  · rw [if_pos h12]
    exact two_char_case src tks cur lin TokenType.EqualEqual TokenType.Equal hA hlt
  rw [if_neg h12]
  by_cases h13 : c = '<'
  · rw [if_pos h13]
    exact two_char_case src tks cur lin TokenType.LessEqual TokenType.Less hA hlt
  rw [if_neg h13]
  by_cases h14 : c = '>'
  · rw [if_pos h14]
    exact two_char_case src tks cur lin TokenType.GreaterEqual TokenType.Greater hA hlt
  rw [if_neg h14]
  by_cases h15 : c = '/'
  · rw [if_pos h15]
    obtain ⟨b, q, hcm, hq1, hq2⟩ := char_match_ascii src tks cur (cur + 1) lin '/' hA (by omega)
    cases b with
    | true =>
      simp only [hcm]
      obtain ⟨q2, hcl, hr1, hr2⟩ := commentLoop_ascii_ok (srcLen src + 2) ⟨src, tks, cur, q, lin⟩
        hA hq2 (by have := srcLen_ascii src hA; simp only; omega)
      have hr1a : q ≤ q2 := hr1
      have hr2a : q2 ≤ src.length := hr2
      simp only [hcl]
      exact ⟨⟨src, tks, cur, q2, lin⟩, none, rfl, rfl, rfl, by show cur < q2; omega, hr2a,
        Or.inl rfl⟩
    | false =>
      simp only [hcm]
      have htok := add_token_ascii src tks cur q lin TokenType.Slash none hA (by omega) hq2
      simp only [Lexer.add_token, htok]
      exact ⟨⟨src, tks ++ [⟨TokenType.Slash, String.mk ((src.drop cur).take (q - cur)),
          none, lin⟩], cur, q, lin⟩, none, rfl, rfl, rfl, by show cur < q; omega, hq2,
        Or.inr ⟨⟨TokenType.Slash, String.mk ((src.drop cur).take (q - cur)), none, lin⟩,
          rfl, rfl⟩⟩
  rw [if_neg h15]
  by_cases h16 : c = ' ' ∨ c = '\r' ∨ c = '\t'
  · rw [if_pos h16]
    exact ⟨⟨src, tks, cur, cur + 1, lin⟩, none, rfl, rfl, rfl,
      by show cur < cur + 1; omega, by show cur + 1 ≤ src.length; omega, Or.inl rfl⟩
  rw [if_neg h16]
  by_cases h17 : c = '\n'
  · rw [if_pos h17]
    exact ⟨⟨src, tks, cur, cur + 1, lin + 1⟩, none, rfl, rfl, rfl,
      by show cur < cur + 1; omega, by show cur + 1 ≤ src.length; omega, Or.inl rfl⟩
  rw [if_neg h17]
  by_cases h18 : c = '"'
  · rw [if_pos h18]
    obtain ⟨st2, eOpt, hrun, hsrc2, hst2, hc2, hc2b, hOr⟩ :=
      stringLit_ascii src tks cur (cur + 1) lin hA (by omega) (by omega)
    simp only [hrun]
    refine ⟨st2, eOpt, rfl, hsrc2, hst2, ?_, hc2b, hOr⟩
    have : cur + 1 ≤ st2.current := hc2
    omega
  rw [if_neg h18]
  by_cases h19 : is_digit c = true
  · rw [if_pos h19]
    obtain ⟨st2, eOpt, hrun, hsrc2, hst2, hc2, hc2b, hOr⟩ :=
      number_ascii src tks cur (cur + 1) lin hA (by omega) (by omega)
    simp only [hrun]
    refine ⟨st2, eOpt, rfl, hsrc2, hst2, ?_, hc2b, hOr⟩
    have : cur + 1 ≤ st2.current := hc2
    omega
  rw [if_neg h19]
  by_cases h20 : is_alphabetical c = true
  · rw [if_pos h20]
    obtain ⟨st2, hrun, hsrc2, hst2, hc2, hc2b, hOr⟩ :=
      identifier_ascii src tks cur (cur + 1) lin hA (by omega) (by omega)
    simp only [hrun]
    refine ⟨st2, none, rfl, hsrc2, hst2, ?_, hc2b, hOr⟩
    have : cur + 1 ≤ st2.current := hc2
    omega
  rw [if_neg h20]
  exact ⟨⟨src, tks, cur, cur + 1, lin⟩,
    some ("Unrecognized char at line " ++ toString lin ++ ": " ++ String.singleton c),
    rfl, rfl, rfl, by show cur < cur + 1; omega, by show cur + 1 ≤ src.length; omega,
    Or.inl rfl⟩

/-- The whole scan loop on a single-byte source: no panic, and the
tokens appended by the loop carry pairwise-disjoint scan windows, in
input order starting at the entry cursor, each token's lexeme being
verbatim the slice of the source at its own window. -/
theorem scanLoop_ascii : ∀ (f : Nat) (st : Lexer) (errs : List String),
    (∀ c ∈ st.source, c.utf8Size = 1) →
    st.current ≤ st.source.length →
    st.source.length - st.current < f →
    ∃ st1 errs1, scanLoop f st errs = Except.ok (st1, errs1)
      ∧ st1.source = st.source
      ∧ ∃ new, st1.tokens = st.tokens ++ new ∧ ScanWindows st.source st.current new := by
  intro f
  induction f with
  | zero => intro st errs _ _ hf; omega
  | succ f ih =>
    intro st errs hA hcur hf
    by_cases hend : st.is_at_end = true
    · refine ⟨st, errs, ?_, rfl, [], by simp, True.intro⟩
      rw [scanLoop, if_pos hend]
    · have hlen := srcLen_ascii st.source hA
      have hlt : st.current < st.source.length := by
        simp [Lexer.is_at_end, hlen] at hend
        omega
      obtain ⟨st2, eOpt, hscan, hsrc2, hst2, hc2, hc2b, hOr⟩ :=
        scan_token_ascii { st with start := st.current } hA rfl hlt
      have hc2x : st.current < st2.current := hc2
      have hc2bx : st2.current ≤ st.source.length := hc2b
      have hsrc2x : st2.source = st.source := hsrc2
      have hih := ih st2
      rw [hsrc2x] at hih
      cases eOpt with
      | none =>
        obtain ⟨st3, errs3, hrun3, hsrc3, new2, hnew2, hw2⟩ := hih errs hA hc2bx (by omega)
        refine ⟨st3, errs3, ?_, hsrc3, ?_⟩
        · rw [scanLoop, if_neg hend]
          simp only [hscan]
          exact hrun3
        · rcases hOr with heq | ⟨tok, heq, hlex⟩
          · have heqx : st2.tokens = st.tokens := heq
            refine ⟨new2, ?_, scanWindows_mono st.source st.current st2.current new2
              (by omega) hw2⟩
            rw [hnew2, heqx]
          · have heqx : st2.tokens = st.tokens ++ [tok] := heq
            have hlexx : tok.lexeme.data =
                (st.source.drop st.current).take (st2.current - st.current) := hlex
            refine ⟨tok :: new2, ?_, ?_⟩
            · rw [hnew2, heqx]
              simp
            · exact ⟨st.current, st2.current, le_refl _, by omega, hc2bx, hlexx, hw2⟩
      | some msg =>
        obtain ⟨st3, errs3, hrun3, hsrc3, new2, hnew2, hw2⟩ :=
          hih (errs ++ [msg]) hA hc2bx (by omega)
        refine ⟨st3, errs3, ?_, hsrc3, ?_⟩
        · rw [scanLoop, if_neg hend]
          simp only [hscan]
          exact hrun3
        · rcases hOr with heq | ⟨tok, heq, hlex⟩
          · have heqx : st2.tokens = st.tokens := heq
            refine ⟨new2, ?_, scanWindows_mono st.source st.current st2.current new2
              (by omega) hw2⟩
            rw [hnew2, heqx]
          · have heqx : st2.tokens = st.tokens ++ [tok] := heq
            have hlexx : tok.lexeme.data =
                (st.source.drop st.current).take (st2.current - st.current) := hlex
            refine ⟨tok :: new2, ?_, ?_⟩
            · rw [hnew2, heqx]
              simp
            · exact ⟨st.current, st2.current, le_refl _, by omega, hc2bx, hlexx, hw2⟩

/-- Claim C5 (amended): for every input consisting of single-byte
(ASCII-range) characters, `scan_tokens` returns, and the tokens it
produces carry, in input order, pairwise-disjoint scan windows: each
token's lexeme is verbatim the contiguous slice of the input at the very
positions that token was scanned from (the end-of-input token's lexeme
is the empty slice).  The original claim's extension to multi-byte
inputs fails: there the mixed byte/character indexing makes the scan
abort with an index panic, and a token already produced carries the byte
slice at the wrong position (see the counterexample). -/
theorem claim_C5_lexeme_slice :
    ∀ s : List Char, (∀ c ∈ s, c.utf8Size = 1) →
    ∃ st res, scan_tokens s = Except.ok (st, res) ∧ ScanWindows s 0 st.tokens := by
  intro s hA
  have hlen := srcLen_ascii s hA
  obtain ⟨st1, errs1, hrun, hsrc, new, hnew, hw⟩ := scanLoop_ascii (srcLen s + 1)
    (Lexer.mkNew s) [] hA (by show (0 : Nat) ≤ s.length; omega)
    (by show s.length - 0 < srcLen s + 1; omega)
  rw [scan_tokens]
  simp only [hrun]
  have hnewx : st1.tokens = new := by
    have h0 : st1.tokens = ([] : List Token) ++ new := hnew
    simpa using h0
  have hwx : ScanWindows s 0 new := hw
  have hwE : ScanWindows s 0 (pushEof st1).tokens := by
    show ScanWindows s 0 (st1.tokens ++ [⟨TokenType.Eof, "", none, st1.line⟩])
    rw [hnewx]
    exact scanWindows_push_empty s ⟨TokenType.Eof, "", none, st1.line⟩ rfl new 0
      (by omega) hwx
  by_cases he : errs1 = []
  · rw [if_pos he]
    exact ⟨pushEof st1, Except.ok (pushEof st1).tokens, rfl, hwE⟩
  · rw [if_neg he]
    exact ⟨pushEof st1, Except.error (joinErrors errs1), rfl, hwE⟩

/-- Witness for claim C5 at the source `"x; 1"`. -/
theorem claim_C5_witness :
    ∃ st res, scan_tokens "x; 1".data = Except.ok (st, res)
      ∧ ScanWindows "x; 1".data 0 st.tokens :=
  claim_C5_lexeme_slice "x; 1".data (by decide)

/-- Claim C1, counterexample: the original claim covers every source
with a scan error, but on the multi-byte source `"é"` the lexer first
records the scan error for the unrecognized character, then — because
`is_at_end` compares the character cursor against the byte length — the
next step's `advance` reads past the end of `chars()` and panics, so
`scan_tokens` aborts instead of returning the collected message. -/
theorem claim_C1_cex :
    Lexer.scan_token ⟨"é".data, [], 0, 0, 1⟩ =
      Except.ok (⟨"é".data, [], 0, 1, 1⟩, some "Unrecognized char at line 1: é")
    ∧ scan_tokens "é".data = Except.error ⟨"é".data, [], 1, 1, 1⟩ := ⟨rfl, rfl⟩

/-- Claim C1 (amended): on every source of single-byte characters the
scan loop never panics: it reaches the end of the input (each failing
lexeme is skipped, so one call can collect several independent errors),
the lexer retains the best-effort token sequence — the surviving tokens
plus the final end-of-input token, minus the erroring characters — and
when at least one scan error occurred the call returns the accumulated
error messages, each followed by a newline, joined in order.  On sources
with multi-byte characters the lexer can instead panic after recording
an error, losing the collected messages (see the counterexample).  The
concrete conjunct exhibits two independent errors (`@` and `#`)
collected in one call with the identifier between them still
tokenized. -/
theorem claim_C1_errors_collected :
    (∀ s : List Char, (∀ c ∈ s, c.utf8Size = 1) →
      ∃ st errs, scanLoop (srcLen s + 1) (Lexer.mkNew s) [] = Except.ok (st, errs)
        ∧ st.is_at_end = true
        ∧ (errs ≠ [] →
            scan_tokens s = Except.ok (pushEof st, Except.error (joinErrors errs)))
        ∧ (pushEof st).tokens = st.tokens ++ [⟨TokenType.Eof, "", none, st.line⟩])
    ∧ scan_tokens "@ x #".data =
        Except.ok (⟨"@ x #".data,
          [⟨TokenType.Identifier, "x", none, 1⟩, ⟨TokenType.Eof, "", none, 1⟩], 4, 5, 1⟩,
          Except.error "Unrecognized char at line 1: @\nUnrecognized char at line 1: #\n") := by
  constructor
  · intro s hA
    have hlen := srcLen_ascii s hA
    obtain ⟨st, errs, hrun, hsrc, new, hnew, hw⟩ := scanLoop_ascii (srcLen s + 1)
      (Lexer.mkNew s) [] hA (by show (0 : Nat) ≤ s.length; omega)
      (by show s.length - 0 < srcLen s + 1; omega)
    refine ⟨st, errs, hrun, scanLoop_at_end _ _ _ _ _ hrun, ?_, rfl⟩
    intro hne
    rw [scan_tokens, hrun]
    simp [hne]
  · rfl

/-- Witness for claim C1 at the one-error single-byte source `"@"`. -/
theorem claim_C1_witness :
    ∃ st errs, scanLoop (srcLen "@".data + 1) (Lexer.mkNew "@".data) [] =
        Except.ok (st, errs)
      ∧ st.is_at_end = true
      ∧ (errs ≠ [] →
          scan_tokens "@".data = Except.ok (pushEof st, Except.error (joinErrors errs)))
      ∧ (pushEof st).tokens = st.tokens ++ [⟨TokenType.Eof, "", none, st.line⟩] :=
  claim_C1_errors_collected.1 "@".data (by decide)

/-! ## Step lemmas and helpers for the parser -/

theorem run_expression (toks : List Token) (f cur : Nat) :
    Parser.run toks (f + 1) PRule.expression cur = Parser.run toks f PRule.equality cur := rfl

theorem run_equality (toks : List Token) (f cur : Nat) :
    Parser.run toks (f + 1) PRule.equality cur =
      match Parser.run toks f PRule.comparison cur with
      | none => none
      | some (Except.error m, c) => some (Except.error m, c)
      | some (Except.ok e, c) => Parser.run toks f (PRule.eqLoop e) c := rfl

theorem run_eqLoop (toks : List Token) (f : Nat) (e : Expression) (cur : Nat) :
    Parser.run toks (f + 1) (PRule.eqLoop e) cur =
      match matchTokensL toks [TokenType.BangEqual, TokenType.EqualEqual] cur with
      | none => none
      | some (false, c) => some (Except.ok e, c)
      | some (true, c) =>
        match pPrevious toks c with
        | none => none
        | some op =>
          match Parser.run toks f PRule.comparison c with
          | none => none
          | some (Except.error m, c2) => some (Except.error m, c2)
          | some (Except.ok r, c2) =>
            Parser.run toks f (PRule.eqLoop (Expression.Binary e op r)) c2 := rfl

theorem run_comparison (toks : List Token) (f cur : Nat) :
    Parser.run toks (f + 1) PRule.comparison cur =
      match Parser.run toks f PRule.term cur with
      | none => none
      | some (Except.error m, c) => some (Except.error m, c)
      | some (Except.ok e, c) => Parser.run toks f (PRule.compLoop e) c := rfl

theorem run_compLoop (toks : List Token) (f : Nat) (e : Expression) (cur : Nat) :
    Parser.run toks (f + 1) (PRule.compLoop e) cur =
      match matchTokensL toks [TokenType.Greater, TokenType.GreaterEqual,
          TokenType.Less, TokenType.LessEqual] cur with
      | none => none
      | some (false, c) => some (Except.ok e, c)
      | some (true, c) =>
        match pPrevious toks c with
        | none => none
        | some op =>
          match Parser.run toks f PRule.term c with
          | none => none
          | some (Except.error m, c2) => some (Except.error m, c2)
          | some (Except.ok r, c2) =>
            Parser.run toks f (PRule.compLoop (Expression.Binary e op r)) c2 := rfl

theorem run_term (toks : List Token) (f cur : Nat) :
    Parser.run toks (f + 1) PRule.term cur =
      match Parser.run toks f PRule.factor cur with
      | none => none
      | some (Except.error m, c) => some (Except.error m, c)
      | some (Except.ok e, c) => Parser.run toks f (PRule.termLoop e) c := rfl

theorem run_termLoop (toks : List Token) (f : Nat) (e : Expression) (cur : Nat) :
    Parser.run toks (f + 1) (PRule.termLoop e) cur =
      match matchTokensL toks [TokenType.Minus, TokenType.Plus] cur with
      | none => none
      | some (false, c) => some (Except.ok e, c)
      | some (true, c) =>
        match pPrevious toks c with
        | none => none
        | some op =>
          match Parser.run toks f PRule.factor c with
          | none => none
          | some (Except.error m, c2) => some (Except.error m, c2)
          | some (Except.ok r, c2) =>
            Parser.run toks f (PRule.termLoop (Expression.Binary e op r)) c2 := rfl

theorem run_factor (toks : List Token) (f cur : Nat) :
    Parser.run toks (f + 1) PRule.factor cur =
      match Parser.run toks f PRule.unary cur with
      | none => none
      | some (Except.error m, c) => some (Except.error m, c)
      | some (Except.ok e, c) => Parser.run toks f (PRule.factorLoop e) c := rfl

theorem run_factorLoop (toks : List Token) (f : Nat) (e : Expression) (cur : Nat) :
    Parser.run toks (f + 1) (PRule.factorLoop e) cur =
      match matchTokensL toks [TokenType.Slash, TokenType.Star] cur with
      | none => none
      | some (false, c) => some (Except.ok e, c)
      | some (true, c) =>
        match pPrevious toks c with
        | none => none
        | some op =>
          match Parser.run toks f PRule.unary c with
          | none => none
          | some (Except.error m, c2) => some (Except.error m, c2)
          | some (Except.ok r, c2) =>
            Parser.run toks f (PRule.factorLoop (Expression.Binary e op r)) c2 := rfl

theorem run_unary (toks : List Token) (f cur : Nat) :
    Parser.run toks (f + 1) PRule.unary cur =
      match matchTokensL toks [TokenType.Bang, TokenType.BangEqual] cur with
      | none => none
      | some (true, c) =>
        match pPrevious toks c with
        | none => none
        | some op =>
          match Parser.run toks f PRule.unary c with
          | none => none
          | some (Except.error m, c2) => some (Except.error m, c2)
          | some (Except.ok r, c2) => some (Except.ok (Expression.Unary op r), c2)
      | some (false, c) => Parser.run toks f PRule.primary c := rfl

theorem run_primary (toks : List Token) (f cur : Nat) :
    Parser.run toks (f + 1) PRule.primary cur =
      match pPeek toks cur with
      | none => none
      | some token =>
        if token.token_type = TokenType.LeftParen then
          match pAdvance toks cur with
          | none => none
          | some (_, c) =>
            match Parser.run toks f PRule.expression c with
            | none => none
            | some (Except.error m, c2) => some (Except.error m, c2)
            | some (Except.ok e, c2) =>
              match pConsume toks TokenType.RightParen "Expected ')'" c2 with
              | none => none
              | some (Except.error m) => some (Except.error m, c2)
              | some (Except.ok c3) => some (Except.ok (Expression.Grouping e), c3)
        else if token.token_type = TokenType.False ∨ token.token_type = TokenType.True
            ∨ token.token_type = TokenType.Nil ∨ token.token_type = TokenType.Number
            ∨ token.token_type = TokenType.StringLiteral then
          match pAdvance toks cur with
          | none => none
          | some (_, c) =>
            match LiteralValue.from_token token with
            | none => none
            | some v => some (Except.ok (Expression.Literal v), c)
        else some (Except.error "Expected expression", cur) := rfl

/-- A token that is `Eof` or outside the tested kinds makes
`match_token` answer `false` without moving. -/
theorem matchToken_stop (toks : List Token) (ty : TokenType) (cur : Nat) (t : Token)
    (hp : toks[cur]? = some t)
    (ht : t.token_type = TokenType.Eof ∨ t.token_type ≠ ty) :
    matchToken toks ty cur = some (false, cur) := by
  simp only [matchToken, pPeek, hp]
  rcases ht with h | h
  · rw [if_pos h]
  · by_cases he : t.token_type = TokenType.Eof
    · rw [if_pos he]
    · rw [if_neg he, if_neg h]

theorem matchTokensL_stop (toks : List Token) (tys : List TokenType) (cur : Nat) (t : Token)
    (hp : toks[cur]? = some t)
    (ht : ∀ ty ∈ tys, t.token_type = TokenType.Eof ∨ t.token_type ≠ ty) :
    matchTokensL toks tys cur = some (false, cur) := by
  induction tys with
  | nil => rfl
  | cons ty rest ih =>
    have h1 := matchToken_stop toks ty cur t hp (ht ty (List.mem_cons_self ty rest))
    simp only [matchTokensL, h1]
    exact ih (fun ty2 h2 => ht ty2 (List.mem_cons_of_mem ty h2))

theorem matchToken_hit (toks : List Token) (ty : TokenType) (cur : Nat) (t : Token)
    (hp : toks[cur]? = some t) (hne : t.token_type ≠ TokenType.Eof)
    (hty : t.token_type = ty) :
    matchToken toks ty cur = some (true, cur + 1) := by
  simp only [matchToken, pPeek, pAdvance, pPrevious, hp]
  rw [if_neg hne, if_pos hty, if_neg hne]
  simp [hp]

/-- The fuel `Parser.parse` hands to the first recursive `unary` call
(after descending expression → equality → comparison → term → factor →
unary and consuming the prefix operator). -/
def unaryFuel (toks : List Token) : Nat := parserFuel toks - 6

/-- Claim C8: the `unary` production accepts `!=` as a prefix operator —
for every token sequence `tk :: rest ++ [tEof]` where `tk` is a
`BangEqual` token, `tEof` the end-of-input terminator, and `rest` a
complete unary expression (the recursive `unary` call on it succeeds
consuming exactly `rest`), `Parser::parse` succeeds and returns the
`Unary` node whose operator is that `BangEqual` token. -/
theorem claim_C8_bangequal_prefix :
    ∀ (tk tEof : Token) (rest : List Token) (u : Expression),
    tk.token_type = TokenType.BangEqual → tEof.token_type = TokenType.Eof →
    Parser.run (tk :: rest ++ [tEof]) (unaryFuel (tk :: rest ++ [tEof])) PRule.unary 1 =
      some (Except.ok u, rest.length + 1) →
    Parser.parse (tk :: rest ++ [tEof]) =
      some (Except.ok (Expression.Unary tk u), rest.length + 1) := by
  intro tk tEof rest u htk hEof hun
  set toks := tk :: rest ++ [tEof] with htoksdef
  set g := unaryFuel toks with hgdef
  have hn : toks.length = rest.length + 2 := by simp [htoksdef]
  have hg : parserFuel toks = g + 6 := by
    simp only [hgdef, parserFuel, unaryFuel, hn]
    omega
  have hp0 : toks[0]? = some tk := by simp [htoksdef]
  have hpe : toks[rest.length + 1]? = some tEof := by
    rw [htoksdef, show rest.length + 1 = (tk :: rest).length by simp]
    exact List.getElem?_concat_length (tk :: rest) tEof
  have htkne : tk.token_type ≠ TokenType.Eof := by rw [htk]; decide
  have hmB : matchToken toks TokenType.Bang 0 = some (false, 0) :=
    matchToken_stop toks _ 0 tk hp0 (Or.inr (by rw [htk]; decide))
  have hmBE : matchToken toks TokenType.BangEqual 0 = some (true, 1) :=
    matchToken_hit toks _ 0 tk hp0 htkne htk
  have hmtl : matchTokensL toks [TokenType.Bang, TokenType.BangEqual] 0 = some (true, 1) := by
    simp only [matchTokensL, hmB, hmBE]
  have hprev : pPrevious toks 1 = some tk := by
    simp [pPrevious, hp0]
  have hstopFS : matchTokensL toks [TokenType.Slash, TokenType.Star] (rest.length + 1) =
      some (false, rest.length + 1) :=
    matchTokensL_stop toks _ _ tEof hpe (by intro ty _; exact Or.inl hEof)
  have hstopMP : matchTokensL toks [TokenType.Minus, TokenType.Plus] (rest.length + 1) =
      some (false, rest.length + 1) :=
    matchTokensL_stop toks _ _ tEof hpe (by intro ty _; exact Or.inl hEof)
  have hstopCMP : matchTokensL toks [TokenType.Greater, TokenType.GreaterEqual,
      TokenType.Less, TokenType.LessEqual] (rest.length + 1) =
      some (false, rest.length + 1) :=
    matchTokensL_stop toks _ _ tEof hpe (by intro ty _; exact Or.inl hEof)
  have hstopEQ : matchTokensL toks [TokenType.BangEqual, TokenType.EqualEqual]
      (rest.length + 1) = some (false, rest.length + 1) :=
    matchTokensL_stop toks _ _ tEof hpe (by intro ty _; exact Or.inl hEof)
  have hu : Parser.run toks (g + 1) PRule.unary 0 =
      some (Except.ok (Expression.Unary tk u), rest.length + 1) := by
    rw [run_unary]
    simp only [hmtl, hprev, hun]
  have hfl : Parser.run toks (g + 1) (PRule.factorLoop (Expression.Unary tk u))
      (rest.length + 1) = some (Except.ok (Expression.Unary tk u), rest.length + 1) := by
    rw [run_factorLoop]
    simp only [hstopFS]
  have hfac : Parser.run toks (g + 2) PRule.factor 0 =
      some (Except.ok (Expression.Unary tk u), rest.length + 1) := by
    rw [show g + 2 = (g + 1) + 1 by omega, run_factor]
    simp only [hu, hfl]
  have htl : Parser.run toks (g + 2) (PRule.termLoop (Expression.Unary tk u))
      (rest.length + 1) = some (Except.ok (Expression.Unary tk u), rest.length + 1) := by
    rw [show g + 2 = (g + 1) + 1 by omega, run_termLoop]
    simp only [hstopMP]
  have hterm : Parser.run toks (g + 3) PRule.term 0 =
      some (Except.ok (Expression.Unary tk u), rest.length + 1) := by
    rw [show g + 3 = (g + 2) + 1 by omega, run_term]
    simp only [hfac, htl]
  have hcl : Parser.run toks (g + 3) (PRule.compLoop (Expression.Unary tk u))
      (rest.length + 1) = some (Except.ok (Expression.Unary tk u), rest.length + 1) := by
    rw [show g + 3 = (g + 2) + 1 by omega, run_compLoop]
    simp only [hstopCMP]
  have hcomp : Parser.run toks (g + 4) PRule.comparison 0 =
      some (Except.ok (Expression.Unary tk u), rest.length + 1) := by
    rw [show g + 4 = (g + 3) + 1 by omega, run_comparison]
    simp only [hterm, hcl]
  have hel : Parser.run toks (g + 4) (PRule.eqLoop (Expression.Unary tk u))
      (rest.length + 1) = some (Except.ok (Expression.Unary tk u), rest.length + 1) := by
    rw [show g + 4 = (g + 3) + 1 by omega, run_eqLoop]
    simp only [hstopEQ]
  have heq : Parser.run toks (g + 5) PRule.equality 0 =
      some (Except.ok (Expression.Unary tk u), rest.length + 1) := by
    rw [show g + 5 = (g + 4) + 1 by omega, run_equality]
    simp only [hcomp, hel]
  rw [Parser.parse, hg, show g + 6 = (g + 5) + 1 by omega, run_expression]
  exact heq

/-- Witness for claim C8: `!= 1` parses to `(!= 1)`. -/
theorem claim_C8_witness :
    Parser.parse [⟨TokenType.BangEqual, "!=", none, 1⟩,
        ⟨TokenType.Number, "1", some (TokenLiteralValue.FValue 1), 1⟩,
        ⟨TokenType.Eof, "", none, 1⟩] =
      some (Except.ok (Expression.Unary ⟨TokenType.BangEqual, "!=", none, 1⟩
        (Expression.Literal (LiteralValue.Number 1))), 2) :=
  claim_C8_bangequal_prefix ⟨TokenType.BangEqual, "!=", none, 1⟩ ⟨TokenType.Eof, "", none, 1⟩
    [⟨TokenType.Number, "1", some (TokenLiteralValue.FValue 1), 1⟩]
    (Expression.Literal (LiteralValue.Number 1)) (by decide) (by decide) (by rfl)

/-- Rank of a production in the grammar ladder, used only for the fuel
bound of the totality proof. -/
def rank : PRule → Nat
  | PRule.primary => 0
  | PRule.unary => 1
  | PRule.factorLoop _ => 2
  | PRule.factor => 3
  | PRule.termLoop _ => 4
  | PRule.term => 5
  | PRule.compLoop _ => 6
  | PRule.comparison => 7
  | PRule.eqLoop _ => 8
  | PRule.equality => 9
  | PRule.expression => 10

/-- A token whose literal payload matches what `LiteralValue::from_token`
expects: a numeric payload on `Number`, a string payload on
`StringLiteral` (anything else panics in `unwrap_as_f32` /
`unwrap_as_string`). -/
def payloadWF (t : Token) : Bool :=
  match t.token_type, t.literal with
  | TokenType.Number, some (TokenLiteralValue.IntValue _) => true
  | TokenType.Number, some (TokenLiteralValue.FValue _) => true
  | TokenType.Number, _ => false
  | TokenType.StringLiteral, some (TokenLiteralValue.StringValue _) => true
  | TokenType.StringLiteral, some (TokenLiteralValue.IdentifierValue _) => true
  | TokenType.StringLiteral, _ => false
  | _, _ => true

theorem from_token_total (t : Token) (hwf : payloadWF t = true)
    (h : t.token_type = TokenType.False ∨ t.token_type = TokenType.True
      ∨ t.token_type = TokenType.Nil ∨ t.token_type = TokenType.Number
      ∨ t.token_type = TokenType.StringLiteral) :
    ∃ v, LiteralValue.from_token t = some v := by
  rcases h with h | h | h | h | h
  · exact ⟨LiteralValue.False, by simp [LiteralValue.from_token, h]⟩
  · exact ⟨LiteralValue.True, by simp [LiteralValue.from_token, h]⟩
  · exact ⟨LiteralValue.Nil, by simp [LiteralValue.from_token, h]⟩
  · cases hl : t.literal with
    | none => rw [payloadWF, h, hl] at hwf; cases hwf
    | some lv =>
      cases lv with
      | IntValue x =>
        exact ⟨LiteralValue.Number (x : Rat),
          by simp [LiteralValue.from_token, h, hl, unwrap_as_f32]⟩
      | FValue x =>
        exact ⟨LiteralValue.Number x,
          by simp [LiteralValue.from_token, h, hl, unwrap_as_f32]⟩
      | StringValue s => rw [payloadWF, h, hl] at hwf; cases hwf
      | IdentifierValue s => rw [payloadWF, h, hl] at hwf; cases hwf
  · cases hl : t.literal with
    | none => rw [payloadWF, h, hl] at hwf; cases hwf
    | some lv =>
      cases lv with
      | IntValue x => rw [payloadWF, h, hl] at hwf; cases hwf
      | FValue x => rw [payloadWF, h, hl] at hwf; cases hwf
      | StringValue s =>
        exact ⟨LiteralValue.StringValue s,
          by simp [LiteralValue.from_token, h, hl, unwrap_as_string]⟩
      | IdentifierValue s =>
        exact ⟨LiteralValue.StringValue s,
          by simp [LiteralValue.from_token, h, hl, unwrap_as_string]⟩

/-- `match_tokens` in the presence of an `Eof` token at or after the
cursor: never panics, stays in bounds, moves by exactly one on a hit. -/
theorem matchTokensL_total (toks : List Token) (tys : List TokenType) (cur i : Nat) (tE : Token)
    (hcur : cur ≤ i) (hi : toks[i]? = some tE) (hE : tE.token_type = TokenType.Eof) :
    ∃ b c, matchTokensL toks tys cur = some (b, c) ∧ cur ≤ c ∧ c ≤ i
      ∧ (b = false → c = cur) ∧ (b = true → c = cur + 1 ∧ cur < i) := by
  induction tys with
  | nil =>
    refine ⟨false, cur, rfl, le_refl _, hcur, ?_, ?_⟩
    · intro _; rfl
    · intro h; cases h
  | cons ty rest ih =>
    obtain ⟨hilen, -⟩ := List.getElem?_eq_some.mp hi
    have hclen : cur < toks.length := by omega
    obtain ⟨t, hp⟩ : ∃ t, toks[cur]? = some t :=
      ⟨toks.get ⟨cur, hclen⟩, by simp [List.getElem?_eq_getElem hclen, List.get_eq_getElem]⟩
    by_cases hEq : t.token_type = TokenType.Eof
    · have h1 := matchToken_stop toks ty cur t hp (Or.inl hEq)
      obtain ⟨b, c, hm, hc1, hc2, hcf, hct⟩ := ih
      exact ⟨b, c, by simp only [matchTokensL, h1]; exact hm, hc1, hc2, hcf, hct⟩
    · by_cases hty : t.token_type = ty
      · have h1 := matchToken_hit toks ty cur t hp hEq hty
        have hne : cur ≠ i := by
          intro he
          subst he
          rw [hp] at hi
          cases hi
          exact hEq hE
        refine ⟨true, cur + 1, by simp only [matchTokensL, h1], by omega, by omega, ?_, ?_⟩
        · intro h; cases h
        · intro _; exact ⟨rfl, by omega⟩
      · have h1 := matchToken_stop toks ty cur t hp (Or.inr hty)
        obtain ⟨b, c, hm, hc1, hc2, hcf, hct⟩ := ih
        exact ⟨b, c, by simp only [matchTokensL, h1]; exact hm, hc1, hc2, hcf, hct⟩

theorem cur_lt_eof (toks : List Token) (cur i : Nat) (t tE : Token)
    (hp : toks[cur]? = some t) (hi : toks[i]? = some tE)
    (hE : tE.token_type = TokenType.Eof) (hne : t.token_type ≠ TokenType.Eof)
    (hcur : cur ≤ i) : cur < i := by
  rcases Nat.lt_or_ge cur i with h | h
  · exact h
  · have he : cur = i := by omega
    subst he
    rw [hp] at hi
    cases hi
    exact absurd hE hne

/-- Totality of the parser on any token sequence that contains an
end-of-input token and whose literal payloads are well-typed: every
production returns a `some` result (no index or unwrap panic) and the
cursor never passes the `Eof` position. -/
theorem run_total (toks : List Token) (hwf : ∀ t ∈ toks, payloadWF t = true) :
    ∀ (f : Nat) (rule : PRule) (cur i : Nat) (tE : Token),
    toks[i]? = some tE → tE.token_type = TokenType.Eof → cur ≤ i →
    16 * (i - cur) + rank rule + 1 ≤ f →
    ∃ r p, Parser.run toks f rule cur = some (r, p) ∧ cur ≤ p ∧ p ≤ i := by
  intro f
  induction f with
  | zero => intro rule cur i tE _ _ _ hf; omega
  | succ f ih =>
    intro rule cur i tE hi hE hcur hf
    cases rule with
    | expression =>
      obtain ⟨r, p, hrun, h1, h2⟩ := ih PRule.equality cur i tE hi hE hcur
        (by simp only [rank] at hf ⊢; omega)
      exact ⟨r, p, by rw [run_expression]; exact hrun, h1, h2⟩
    | equality =>
      obtain ⟨r1, p1, hrun1, h11, h12⟩ := ih PRule.comparison cur i tE hi hE hcur
        (by simp only [rank] at hf ⊢; omega)
      cases r1 with
      | error m =>
        exact ⟨Except.error m, p1, by rw [run_equality]; simp only [hrun1], h11, h12⟩
      | ok e =>
        obtain ⟨r2, p2, hrun2, h21, h22⟩ := ih (PRule.eqLoop e) p1 i tE hi hE h12
          (by simp only [rank] at hf ⊢; omega)
        exact ⟨r2, p2, by rw [run_equality]; simp only [hrun1]; exact hrun2, by omega, h22⟩
    | comparison =>
      obtain ⟨r1, p1, hrun1, h11, h12⟩ := ih PRule.term cur i tE hi hE hcur
        (by simp only [rank] at hf ⊢; omega)
      cases r1 with
      | error m =>
        exact ⟨Except.error m, p1, by rw [run_comparison]; simp only [hrun1], h11, h12⟩
      | ok e =>
        obtain ⟨r2, p2, hrun2, h21, h22⟩ := ih (PRule.compLoop e) p1 i tE hi hE h12
          (by simp only [rank] at hf ⊢; omega)
        exact ⟨r2, p2, by rw [run_comparison]; simp only [hrun1]; exact hrun2, by omega, h22⟩
    | term =>
      obtain ⟨r1, p1, hrun1, h11, h12⟩ := ih PRule.factor cur i tE hi hE hcur
        (by simp only [rank] at hf ⊢; omega)
      cases r1 with
      | error m =>
        exact ⟨Except.error m, p1, by rw [run_term]; simp only [hrun1], h11, h12⟩
      | ok e =>
        obtain ⟨r2, p2, hrun2, h21, h22⟩ := ih (PRule.termLoop e) p1 i tE hi hE h12
          (by simp only [rank] at hf ⊢; omega)
        exact ⟨r2, p2, by rw [run_term]; simp only [hrun1]; exact hrun2, by omega, h22⟩
    | factor =>
      obtain ⟨r1, p1, hrun1, h11, h12⟩ := ih PRule.unary cur i tE hi hE hcur
        (by simp only [rank] at hf ⊢; omega)
      cases r1 with
      | error m =>
        exact ⟨Except.error m, p1, by rw [run_factor]; simp only [hrun1], h11, h12⟩
      | ok e =>
        obtain ⟨r2, p2, hrun2, h21, h22⟩ := ih (PRule.factorLoop e) p1 i tE hi hE h12
          (by simp only [rank] at hf ⊢; omega)
        exact ⟨r2, p2, by rw [run_factor]; simp only [hrun1]; exact hrun2, by omega, h22⟩
    | eqLoop e =>
      obtain ⟨b, c, hm, hc1, hc2, hcf, hct⟩ := matchTokensL_total toks
        [TokenType.BangEqual, TokenType.EqualEqual] cur i tE hcur hi hE
      cases b with
      | false =>
        have hc := hcf rfl
        rw [hc] at hm
        exact ⟨Except.ok e, cur, by rw [run_eqLoop]; simp only [hm], le_refl _, hcur⟩
      | true =>
        obtain ⟨hc, hci⟩ := hct rfl
        subst hc
        have hclen : cur < toks.length := by
          obtain ⟨hilen, -⟩ := List.getElem?_eq_some.mp hi
          omega
        obtain ⟨op, hop⟩ : ∃ op, pPrevious toks (cur + 1) = some op :=
          ⟨toks.get ⟨cur, hclen⟩,
            by simp [pPrevious, List.getElem?_eq_getElem hclen, List.get_eq_getElem]⟩
        obtain ⟨r1, p1, hrun1, h11, h12⟩ := ih PRule.comparison (cur + 1) i tE hi hE (by omega)
          (by simp only [rank] at hf ⊢; omega)
        cases r1 with
        | error m =>
          exact ⟨Except.error m, p1,
            by rw [run_eqLoop]; simp only [hm, hop, hrun1], by omega, h12⟩
        | ok r =>
          obtain ⟨r2, p2, hrun2, h21, h22⟩ := ih (PRule.eqLoop (Expression.Binary e op r))
            p1 i tE hi hE h12 (by simp only [rank] at hf ⊢; omega)
          exact ⟨r2, p2, by rw [run_eqLoop]; simp only [hm, hop, hrun1]; exact hrun2,
            by omega, h22⟩
    | compLoop e =>
      obtain ⟨b, c, hm, hc1, hc2, hcf, hct⟩ := matchTokensL_total toks
        [TokenType.Greater, TokenType.GreaterEqual, TokenType.Less, TokenType.LessEqual]
        cur i tE hcur hi hE
      cases b with
      | false =>
        have hc := hcf rfl
        rw [hc] at hm
        exact ⟨Except.ok e, cur, by rw [run_compLoop]; simp only [hm], le_refl _, hcur⟩
      | true =>
        obtain ⟨hc, hci⟩ := hct rfl
        subst hc
        have hclen : cur < toks.length := by
          obtain ⟨hilen, -⟩ := List.getElem?_eq_some.mp hi
          omega
        obtain ⟨op, hop⟩ : ∃ op, pPrevious toks (cur + 1) = some op :=
          ⟨toks.get ⟨cur, hclen⟩,
            by simp [pPrevious, List.getElem?_eq_getElem hclen, List.get_eq_getElem]⟩
        obtain ⟨r1, p1, hrun1, h11, h12⟩ := ih PRule.term (cur + 1) i tE hi hE (by omega)
          (by simp only [rank] at hf ⊢; omega)
        cases r1 with
        | error m =>
          exact ⟨Except.error m, p1,
            by rw [run_compLoop]; simp only [hm, hop, hrun1], by omega, h12⟩
        | ok r =>
          obtain ⟨r2, p2, hrun2, h21, h22⟩ := ih (PRule.compLoop (Expression.Binary e op r))
            p1 i tE hi hE h12 (by simp only [rank] at hf ⊢; omega)
          exact ⟨r2, p2, by rw [run_compLoop]; simp only [hm, hop, hrun1]; exact hrun2,
            by omega, h22⟩
    | termLoop e =>
      obtain ⟨b, c, hm, hc1, hc2, hcf, hct⟩ := matchTokensL_total toks
        [TokenType.Minus, TokenType.Plus] cur i tE hcur hi hE
      cases b with
      | false =>
        have hc := hcf rfl
        rw [hc] at hm
        exact ⟨Except.ok e, cur, by rw [run_termLoop]; simp only [hm], le_refl _, hcur⟩
      | true =>
        obtain ⟨hc, hci⟩ := hct rfl
        subst hc
        have hclen : cur < toks.length := by
          obtain ⟨hilen, -⟩ := List.getElem?_eq_some.mp hi
          omega
        obtain ⟨op, hop⟩ : ∃ op, pPrevious toks (cur + 1) = some op :=
          ⟨toks.get ⟨cur, hclen⟩,
            by simp [pPrevious, List.getElem?_eq_getElem hclen, List.get_eq_getElem]⟩
        obtain ⟨r1, p1, hrun1, h11, h12⟩ := ih PRule.factor (cur + 1) i tE hi hE (by omega)
          (by simp only [rank] at hf ⊢; omega)
        cases r1 with
        | error m =>
          exact ⟨Except.error m, p1,
            by rw [run_termLoop]; simp only [hm, hop, hrun1], by omega, h12⟩
        | ok r =>
          obtain ⟨r2, p2, hrun2, h21, h22⟩ := ih (PRule.termLoop (Expression.Binary e op r))
            p1 i tE hi hE h12 (by simp only [rank] at hf ⊢; omega)
          exact ⟨r2, p2, by rw [run_termLoop]; simp only [hm, hop, hrun1]; exact hrun2,
            by omega, h22⟩
    | factorLoop e =>
      obtain ⟨b, c, hm, hc1, hc2, hcf, hct⟩ := matchTokensL_total toks
        [TokenType.Slash, TokenType.Star] cur i tE hcur hi hE
      cases b with
      | false =>
        have hc := hcf rfl
        rw [hc] at hm
        exact ⟨Except.ok e, cur, by rw [run_factorLoop]; simp only [hm], le_refl _, hcur⟩
      | true =>
        obtain ⟨hc, hci⟩ := hct rfl
        subst hc
        have hclen : cur < toks.length := by
          obtain ⟨hilen, -⟩ := List.getElem?_eq_some.mp hi
          omega
        obtain ⟨op, hop⟩ : ∃ op, pPrevious toks (cur + 1) = some op :=
          ⟨toks.get ⟨cur, hclen⟩,
            by simp [pPrevious, List.getElem?_eq_getElem hclen, List.get_eq_getElem]⟩
        obtain ⟨r1, p1, hrun1, h11, h12⟩ := ih PRule.unary (cur + 1) i tE hi hE (by omega)
          (by simp only [rank] at hf ⊢; omega)
        cases r1 with
        | error m =>
          exact ⟨Except.error m, p1,
            by rw [run_factorLoop]; simp only [hm, hop, hrun1], by omega, h12⟩
        | ok r =>
          obtain ⟨r2, p2, hrun2, h21, h22⟩ := ih (PRule.factorLoop (Expression.Binary e op r))
            p1 i tE hi hE h12 (by simp only [rank] at hf ⊢; omega)
          exact ⟨r2, p2, by rw [run_factorLoop]; simp only [hm, hop, hrun1]; exact hrun2,
            by omega, h22⟩
    | unary =>
      obtain ⟨b, c, hm, hc1, hc2, hcf, hct⟩ := matchTokensL_total toks
        [TokenType.Bang, TokenType.BangEqual] cur i tE hcur hi hE
      cases b with
      | false =>
        have hc := hcf rfl
        rw [hc] at hm
        obtain ⟨r1, p1, hrun1, h11, h12⟩ := ih PRule.primary cur i tE hi hE hcur
          (by simp only [rank] at hf ⊢; omega)
        exact ⟨r1, p1, by rw [run_unary]; simp only [hm]; exact hrun1, h11, h12⟩
      | true =>
        obtain ⟨hc, hci⟩ := hct rfl
        subst hc
        have hclen : cur < toks.length := by
          obtain ⟨hilen, -⟩ := List.getElem?_eq_some.mp hi
          omega
        obtain ⟨op, hop⟩ : ∃ op, pPrevious toks (cur + 1) = some op :=
          ⟨toks.get ⟨cur, hclen⟩,
            by simp [pPrevious, List.getElem?_eq_getElem hclen, List.get_eq_getElem]⟩
        obtain ⟨r1, p1, hrun1, h11, h12⟩ := ih PRule.unary (cur + 1) i tE hi hE (by omega)
          (by simp only [rank] at hf ⊢; omega)
        cases r1 with
        | error m =>
          exact ⟨Except.error m, p1,
            by rw [run_unary]; simp only [hm, hop, hrun1], by omega, h12⟩
        | ok r =>
          exact ⟨Except.ok (Expression.Unary op r), p1,
            by rw [run_unary]; simp only [hm, hop, hrun1], by omega, h12⟩
    | primary =>
      obtain ⟨hilen, -⟩ := List.getElem?_eq_some.mp hi
      have hclen : cur < toks.length := by omega
      obtain ⟨token, hp⟩ : ∃ t, toks[cur]? = some t :=
        ⟨toks.get ⟨cur, hclen⟩, by simp [List.getElem?_eq_getElem hclen, List.get_eq_getElem]⟩
      have hmem : token ∈ toks := List.mem_iff_getElem?.mpr ⟨cur, hp⟩
      by_cases hlp : token.token_type = TokenType.LeftParen
      · have hne : token.token_type ≠ TokenType.Eof := by rw [hlp]; decide
        have hcui : cur < i := cur_lt_eof toks cur i token tE hp hi hE hne hcur
        have hadv : pAdvance toks cur = some (token, cur + 1) := by
          simp only [pAdvance, pPeek, hp]
          rw [if_neg hne]
          simp [pPrevious, hp]
        obtain ⟨r1, p1, hrun1, h11, h12⟩ := ih PRule.expression (cur + 1) i tE hi hE (by omega)
          (by simp only [rank] at hf ⊢; omega)
        cases r1 with
        | error m =>
          refine ⟨Except.error m, p1, ?_, by omega, h12⟩
          rw [run_primary]
          simp only [pPeek, hp]
          rw [if_pos hlp]
          simp only [hadv, hrun1]
        | ok e =>
          have hplen : p1 < toks.length := by omega
          obtain ⟨t2, hp2⟩ : ∃ t2, toks[p1]? = some t2 :=
            ⟨toks.get ⟨p1, hplen⟩, by simp [List.getElem?_eq_getElem hplen, List.get_eq_getElem]⟩
          by_cases hrp : t2.token_type = TokenType.RightParen
          · have hne2 : t2.token_type ≠ TokenType.Eof := by rw [hrp]; decide
            have hp1i : p1 < i := cur_lt_eof toks p1 i t2 tE hp2 hi hE hne2 h12
            have hcons : pConsume toks TokenType.RightParen "Expected ')'" p1 =
                some (Except.ok (p1 + 1)) := by
              simp only [pConsume, pPeek, hp2]
              rw [if_pos hrp]
              simp only [pAdvance, pPeek, hp2]
              rw [if_neg hne2]
              simp [pPrevious, hp2]
            refine ⟨Except.ok (Expression.Grouping e), p1 + 1, ?_, by omega, by omega⟩
            rw [run_primary]
            simp only [pPeek, hp]
            rw [if_pos hlp]
            simp only [hadv, hrun1, hcons]
          · have hcons : pConsume toks TokenType.RightParen "Expected ')'" p1 =
                some (Except.error "Expected ')'") := by
              simp only [pConsume, pPeek, hp2]
              rw [if_neg hrp]
            refine ⟨Except.error "Expected ')'", p1, ?_, by omega, h12⟩
            rw [run_primary]
            simp only [pPeek, hp]
            rw [if_pos hlp]
            simp only [hadv, hrun1, hcons]
      · by_cases hlit : token.token_type = TokenType.False ∨ token.token_type = TokenType.True
            ∨ token.token_type = TokenType.Nil ∨ token.token_type = TokenType.Number
            ∨ token.token_type = TokenType.StringLiteral
        · have hne : token.token_type ≠ TokenType.Eof := by
            rcases hlit with h | h | h | h | h <;> (rw [h]; decide)
          have hcui : cur < i := cur_lt_eof toks cur i token tE hp hi hE hne hcur
          have hadv : pAdvance toks cur = some (token, cur + 1) := by
            simp only [pAdvance, pPeek, hp]
            rw [if_neg hne]
            simp [pPrevious, hp]
          obtain ⟨v, hv⟩ := from_token_total token (hwf token hmem) hlit
          refine ⟨Except.ok (Expression.Literal v), cur + 1, ?_, by omega, by omega⟩
          rw [run_primary]
          simp only [pPeek, hp]
          rw [if_neg hlp, if_pos hlit]
          simp only [hadv, hv]
        · refine ⟨Except.error "Expected expression", cur, ?_, le_refl _, hcur⟩
          rw [run_primary]
          simp only [pPeek, hp]
          rw [if_neg hlp, if_neg hlit]

/-- Claim C4 (amended): for every token sequence that contains the
end-of-input terminator and whose literal payloads are well-typed
(`Number` carries a numeric payload, `StringLiteral` a string payload),
`Parser::parse` returns an explicit success-or-failure result and never
panics.  The original claim's "whatever the literal payloads are" fails:
a `Number` token with an absent or string payload makes `from_token` /
`unwrap_as_f32` panic (see the counterexample). -/
theorem claim_C4_no_panic :
    ∀ (toks : List Token) (i : Nat) (tE : Token),
    toks[i]? = some tE → tE.token_type = TokenType.Eof →
    (∀ t ∈ toks, payloadWF t = true) →
    ∃ r p, Parser.parse toks = some (r, p) := by
  intro toks i tE hi hE hwf
  obtain ⟨hilen, -⟩ := List.getElem?_eq_some.mp hi
  obtain ⟨r, p, hrun, -, -⟩ := run_total toks hwf (parserFuel toks) PRule.expression 0 i tE hi hE
    (by omega) (by simp only [parserFuel, rank]; omega)
  exact ⟨r, p, hrun⟩

/-- Witness for claim C4 at the well-formed sequence `[Number 1, Eof]`. -/
theorem claim_C4_witness :
    ∃ r p, Parser.parse [⟨TokenType.Number, "1", some (TokenLiteralValue.FValue 1), 1⟩,
      ⟨TokenType.Eof, "", none, 1⟩] = some (r, p) :=
  claim_C4_no_panic
    [⟨TokenType.Number, "1", some (TokenLiteralValue.FValue 1), 1⟩,
     ⟨TokenType.Eof, "", none, 1⟩]
    1 ⟨TokenType.Eof, "", none, 1⟩ (by decide) (by decide) (by decide)

/-- Token kinds that can extend an expression when peeked after it: the
operator kinds tested by the `while match_tokens` loops and the `unary`
prefix check. -/
def opCont : TokenType → Bool
  | TokenType.Bang | TokenType.BangEqual | TokenType.EqualEqual
  | TokenType.Greater | TokenType.GreaterEqual | TokenType.Less | TokenType.LessEqual
  | TokenType.Minus | TokenType.Plus | TokenType.Slash | TokenType.Star => true
  | _ => false

def isProdRule : PRule → Bool
  | PRule.eqLoop _ | PRule.compLoop _ | PRule.termLoop _ | PRule.factorLoop _ => false
  | _ => true

theorem opCont_ne (t : Token) (ty : TokenType) (h : opCont t.token_type = false)
    (hty : opCont ty = true) : t.token_type ≠ ty := by
  intro he
  rw [he, hty] at h
  cases h

theorem matchToken_cases (toks : List Token) (ty : TokenType) (cur : Nat) (b : Bool) (c : Nat)
    (h : matchToken toks ty cur = some (b, c)) :
    (b = false ∧ c = cur) ∨
    (b = true ∧ c = cur + 1 ∧ ∃ t, toks[cur]? = some t ∧ t.token_type ≠ TokenType.Eof
      ∧ t.token_type = ty) := by
  cases hp : toks[cur]? with
  | none =>
    simp only [matchToken, pPeek, hp] at h
    exact Option.noConfusion h
  | some t =>
    simp only [matchToken, pPeek, hp] at h
    by_cases hE : t.token_type = TokenType.Eof
    · rw [if_pos hE] at h
      cases h
      exact Or.inl ⟨rfl, rfl⟩
    · rw [if_neg hE] at h
      by_cases hty : t.token_type = ty
      · rw [if_pos hty] at h
        rw [show pAdvance toks cur = some (t, cur + 1) by
          simp only [pAdvance, pPeek, hp]
          rw [if_neg hE]
          simp [pPrevious, hp]] at h
        cases h
        exact Or.inr ⟨rfl, rfl, t, rfl, hE, hty⟩
      · rw [if_neg hty] at h
        cases h
        exact Or.inl ⟨rfl, rfl⟩

theorem matchTokensL_cases (toks : List Token) (tys : List TokenType) (cur : Nat)
    (b : Bool) (c : Nat) (h : matchTokensL toks tys cur = some (b, c)) :
    (b = false ∧ c = cur) ∨
    (b = true ∧ c = cur + 1 ∧ ∃ t, toks[cur]? = some t ∧ t.token_type ≠ TokenType.Eof
      ∧ t.token_type ∈ tys) := by
  induction tys with
  | nil =>
    rw [matchTokensL] at h
    cases h
    exact Or.inl ⟨rfl, rfl⟩
  | cons ty rest ih =>
    rw [matchTokensL] at h
    cases hm : matchToken toks ty cur with
    | none =>
      simp only [hm] at h
      exact Option.noConfusion h
    | some bc =>
      obtain ⟨b1, c1⟩ := bc
      simp only [hm] at h
      cases b1 with
      | true =>
        rcases matchToken_cases toks ty cur true c1 hm with ⟨hb, -⟩ | ⟨-, hc, t, hp, hE, hty⟩
        · cases hb
        · cases h
          exact Or.inr ⟨rfl, hc, t, hp, hE, by rw [hty]; exact List.mem_cons_self ty rest⟩
      | false =>
        rcases matchToken_cases toks ty cur false c1 hm with ⟨-, hc⟩ | ⟨hb, -⟩
        · subst hc
          rcases ih h with h1 | ⟨hb, hc, t, hp, hE, hty⟩
          · exact Or.inl h1
          · exact Or.inr ⟨hb, hc, t, hp, hE, List.mem_cons_of_mem ty hty⟩
        · cases hb

theorem matchToken_congr (toks toks2 : List Token) (ty : TokenType) (cur : Nat)
    (h : toks2[cur]? = toks[cur]?) :
    matchToken toks2 ty cur = matchToken toks ty cur := by
  cases hp : toks[cur]? with
  | none => simp only [matchToken, pPeek, h, hp]
  | some t =>
    simp only [matchToken, pPeek, h, hp]
    by_cases hE : t.token_type = TokenType.Eof
    · rw [if_pos hE, if_pos hE]
    · rw [if_neg hE, if_neg hE]
      by_cases hty : t.token_type = ty
      · rw [if_pos hty, if_pos hty]
        have hadv2 : pAdvance toks2 cur = some (t, cur + 1) := by
          simp only [pAdvance, pPeek, h, hp]
          rw [if_neg hE]
          simp [pPrevious, h, hp]
        have hadv1 : pAdvance toks cur = some (t, cur + 1) := by
          simp only [pAdvance, pPeek, hp]
          rw [if_neg hE]
          simp [pPrevious, hp]
        rw [hadv1, hadv2]
      · rw [if_neg hty, if_neg hty]

theorem matchTokensL_congr (toks toks2 : List Token) (tys : List TokenType) (cur : Nat)
    (h : toks2[cur]? = toks[cur]?) :
    matchTokensL toks2 tys cur = matchTokensL toks tys cur := by
  induction tys with
  | nil => rfl
  | cons ty rest ih =>
    rw [matchTokensL, matchTokensL, matchToken_congr toks toks2 ty cur h]
    cases hm : matchToken toks ty cur with
    | none => rfl
    | some bc =>
      obtain ⟨b, c⟩ := bc
      cases b with
      | true => rfl
      | false =>
        rcases matchToken_cases toks ty cur false c hm with ⟨-, hc⟩ | ⟨hb, -⟩
        · subst hc
          exact ih
        · cases hb

theorem pConsume_ok_cases (toks : List Token) (ty : TokenType) (msg : String) (cur c : Nat)
    (h : pConsume toks ty msg cur = some (Except.ok c)) :
    ∃ t, toks[cur]? = some t ∧ t.token_type = ty
      ∧ ((t.token_type = TokenType.Eof ∧ c = cur)
        ∨ (t.token_type ≠ TokenType.Eof ∧ c = cur + 1)) := by
  cases hp : toks[cur]? with
  | none =>
    simp only [pConsume, pPeek, hp] at h
    exact Option.noConfusion h
  | some t =>
    simp only [pConsume, pPeek, hp] at h
    by_cases hty : t.token_type = ty
    · rw [if_pos hty] at h
      by_cases hE : t.token_type = TokenType.Eof
      · cases hadv : pAdvance toks cur with
        | none =>
          simp only [hadv] at h
          exact Option.noConfusion h
        | some pc =>
          obtain ⟨pt, c1⟩ := pc
          have hc1 : c1 = cur := by
            simp only [pAdvance, pPeek, hp] at hadv
            rw [if_pos hE] at hadv
            cases hpv : pPrevious toks cur with
            | none =>
              simp only [hpv] at hadv
              exact Option.noConfusion hadv
            | some pp =>
              simp only [hpv] at hadv
              cases hadv
              rfl
          simp only [hadv] at h
          cases h
          exact ⟨t, rfl, hty, Or.inl ⟨hE, hc1⟩⟩
      · rw [show pAdvance toks cur = some (t, cur + 1) by
          simp only [pAdvance, pPeek, hp]
          rw [if_neg hE]
          simp [pPrevious, hp]] at h
        cases h
        exact ⟨t, rfl, hty, Or.inr ⟨hE, rfl⟩⟩
    · rw [if_neg hty] at h
      cases h

theorem pConsume_congr (toks toks2 : List Token) (ty : TokenType) (msg : String) (cur : Nat)
    (hty0 : ty ≠ TokenType.Eof) (h : toks2[cur]? = toks[cur]?) :
    pConsume toks2 ty msg cur = pConsume toks ty msg cur := by
  cases hp : toks[cur]? with
  | none => simp only [pConsume, pPeek, h, hp]
  | some t =>
    simp only [pConsume, pPeek, h, hp]
    by_cases htt : t.token_type = ty
    · rw [if_pos htt, if_pos htt]
      have hE : t.token_type ≠ TokenType.Eof := by rw [htt]; exact hty0
      have hadv2 : pAdvance toks2 cur = some (t, cur + 1) := by
        simp only [pAdvance, pPeek, h, hp]
        rw [if_neg hE]
        simp [pPrevious, h, hp]
      have hadv1 : pAdvance toks cur = some (t, cur + 1) := by
        simp only [pAdvance, pPeek, hp]
        rw [if_neg hE]
        simp [pPrevious, hp]
      rw [hadv1, hadv2]
    · rw [if_neg htt, if_neg htt]

/-- `toks2` agrees with `toks` at position `p` closely enough for the
checks the parser performs there: either the same token, or two tokens
neither of which is an expression-continuing operator. -/
def CompatAt (toks toks2 : List Token) (p : Nat) : Prop :=
  toks2[p]? = toks[p]? ∨
    (∃ t1 t2, toks[p]? = some t1 ∧ toks2[p]? = some t2
      ∧ opCont t1.token_type = false ∧ opCont t2.token_type = false)

theorem compatAt_mono (toks toks2 : List Token) (q p : Nat) (hq : q ≤ p)
    (hagree : ∀ j, j < p → toks2[j]? = toks[j]?) (hc : CompatAt toks toks2 p) :
    CompatAt toks toks2 q := by
  rcases Nat.lt_or_ge q p with hlt | hge
  · exact Or.inl (hagree q hlt)
  · have hqp : q = p := by omega
    rw [hqp]
    exact hc

theorem matchTokensL_stop_compat (toks toks2 : List Token) (tys : List TokenType) (p : Nat)
    (hsub : ∀ ty ∈ tys, opCont ty = true) (hc : CompatAt toks toks2 p)
    (hstop : matchTokensL toks tys p = some (false, p)) :
    matchTokensL toks2 tys p = some (false, p) := by
  rcases hc with hc | ⟨t1, t2, h1, h2, ho1, ho2⟩
  · rw [matchTokensL_congr toks toks2 tys p hc, hstop]
  · exact matchTokensL_stop toks2 tys p t2 h2
      (fun ty hty => Or.inr (opCont_ne t2 ty ho2 (hsub ty hty)))

theorem compatAt_of_eq (toks toks2 : List Token) (p : Nat)
    (h : toks2[p]? = toks[p]?) : CompatAt toks toks2 p := Or.inl h

/-- Successful parser runs move the cursor monotonically (strictly for
the seven named productions), never pass an `Eof` position reachable
from the start cursor, and are insensitive both to extra fuel and to the
token list beyond the final position, provided the token at the final
position is compatible (`CompatAt`). -/
theorem run_ok_props (toks toks2 : List Token) :
    ∀ (f : Nat) (rule : PRule) (cur : Nat) (e : Expression) (p : Nat),
    Parser.run toks f rule cur = some (Except.ok e, p) →
    cur ≤ p
    ∧ (isProdRule rule = true → cur < p)
    ∧ (∀ i tE, cur ≤ i → toks[i]? = some tE → tE.token_type = TokenType.Eof → p ≤ i)
    ∧ (∀ f2, f ≤ f2 → (∀ j, j < p → toks2[j]? = toks[j]?) → CompatAt toks toks2 p →
        Parser.run toks2 f2 rule cur = some (Except.ok e, p)) := by
  intro f
  induction f with
  | zero =>
    intro rule cur e p h
    rw [show Parser.run toks 0 rule cur = none from rfl] at h
    exact Option.noConfusion h
  | succ f ih =>
    intro rule cur e p h
    cases rule with
    | expression =>
      rw [run_expression] at h
      obtain ⟨g1, g2, g3, g4⟩ := ih PRule.equality cur e p h
      refine ⟨g1, fun _ => g2 rfl, g3, ?_⟩
      intro f2 hf2 hagree hcomp
      obtain ⟨f2a, rfl⟩ : ∃ f2a, f2 = f2a + 1 := ⟨f2 - 1, by omega⟩
      rw [run_expression]
      exact g4 f2a (by omega) hagree hcomp
    | equality =>
      rw [run_equality] at h
      cases h1 : Parser.run toks f PRule.comparison cur with
      | none => simp [h1] at h
      | some rp =>
        obtain ⟨r1, p1⟩ := rp
        cases r1 with
        | error m => simp [h1] at h
        | ok e1 =>
          simp only [h1] at h
          obtain ⟨g1, g2, g3, g4⟩ := ih PRule.comparison cur e1 p1 h1
          obtain ⟨k1, k2, k3, k4⟩ := ih (PRule.eqLoop e1) p1 e p h
          have hcp : cur < p1 := g2 rfl
          have hp1p : p1 ≤ p := k1
          refine ⟨by omega, fun hx => by omega, ?_, ?_⟩
          · intro i tE hci hit hE
            exact k3 i tE (g3 i tE hci hit hE) hit hE
          · intro f2 hf2 hagree hcomp
            obtain ⟨f2a, rfl⟩ : ∃ f2a, f2 = f2a + 1 := ⟨f2 - 1, by omega⟩
            rw [run_equality]
            have h1a := g4 f2a (by omega) (fun j hj => hagree j (by omega))
              (compatAt_mono toks toks2 p1 p hp1p hagree hcomp)
            simp only [h1a]
            exact k4 f2a (by omega) hagree hcomp
    | comparison =>
      rw [run_comparison] at h
      cases h1 : Parser.run toks f PRule.term cur with
      | none => simp [h1] at h
      | some rp =>
        obtain ⟨r1, p1⟩ := rp
        cases r1 with
        | error m => simp [h1] at h
        | ok e1 =>
          simp only [h1] at h
          obtain ⟨g1, g2, g3, g4⟩ := ih PRule.term cur e1 p1 h1
          obtain ⟨k1, k2, k3, k4⟩ := ih (PRule.compLoop e1) p1 e p h
          have hcp : cur < p1 := g2 rfl
          have hp1p : p1 ≤ p := k1
          refine ⟨by omega, fun hx => by omega, ?_, ?_⟩
          · intro i tE hci hit hE
            exact k3 i tE (g3 i tE hci hit hE) hit hE
          · intro f2 hf2 hagree hcomp
            obtain ⟨f2a, rfl⟩ : ∃ f2a, f2 = f2a + 1 := ⟨f2 - 1, by omega⟩
            rw [run_comparison]
            have h1a := g4 f2a (by omega) (fun j hj => hagree j (by omega))
              (compatAt_mono toks toks2 p1 p hp1p hagree hcomp)
            simp only [h1a]
            exact k4 f2a (by omega) hagree hcomp
    | term =>
      rw [run_term] at h
      cases h1 : Parser.run toks f PRule.factor cur with
      | none => simp [h1] at h
      | some rp =>
        obtain ⟨r1, p1⟩ := rp
        cases r1 with
        | error m => simp [h1] at h
        | ok e1 =>
          simp only [h1] at h
          obtain ⟨g1, g2, g3, g4⟩ := ih PRule.factor cur e1 p1 h1
          obtain ⟨k1, k2, k3, k4⟩ := ih (PRule.termLoop e1) p1 e p h
          have hcp : cur < p1 := g2 rfl
          have hp1p : p1 ≤ p := k1
          refine ⟨by omega, fun hx => by omega, ?_, ?_⟩
          · intro i tE hci hit hE
            exact k3 i tE (g3 i tE hci hit hE) hit hE
          · intro f2 hf2 hagree hcomp
            obtain ⟨f2a, rfl⟩ : ∃ f2a, f2 = f2a + 1 := ⟨f2 - 1, by omega⟩
            rw [run_term]
            have h1a := g4 f2a (by omega) (fun j hj => hagree j (by omega))
              (compatAt_mono toks toks2 p1 p hp1p hagree hcomp)
            simp only [h1a]
            exact k4 f2a (by omega) hagree hcomp
    | factor =>
      rw [run_factor] at h
      cases h1 : Parser.run toks f PRule.unary cur with
      | none => simp [h1] at h
      | some rp =>
        obtain ⟨r1, p1⟩ := rp
        cases r1 with
        | error m => simp [h1] at h
        | ok e1 =>
          simp only [h1] at h
          obtain ⟨g1, g2, g3, g4⟩ := ih PRule.unary cur e1 p1 h1
          obtain ⟨k1, k2, k3, k4⟩ := ih (PRule.factorLoop e1) p1 e p h
          have hcp : cur < p1 := g2 rfl
          have hp1p : p1 ≤ p := k1
          refine ⟨by omega, fun hx => by omega, ?_, ?_⟩
          · intro i tE hci hit hE
            exact k3 i tE (g3 i tE hci hit hE) hit hE
          · intro f2 hf2 hagree hcomp
            obtain ⟨f2a, rfl⟩ : ∃ f2a, f2 = f2a + 1 := ⟨f2 - 1, by omega⟩
            rw [run_factor]
            have h1a := g4 f2a (by omega) (fun j hj => hagree j (by omega))
              (compatAt_mono toks toks2 p1 p hp1p hagree hcomp)
            simp only [h1a]
            exact k4 f2a (by omega) hagree hcomp
    | unary =>
      rw [run_unary] at h
      cases hm : matchTokensL toks [TokenType.Bang, TokenType.BangEqual] cur with
      | none => simp [hm] at h
      | some bc =>
        obtain ⟨b, c⟩ := bc
        cases b with
        | false =>
          simp only [hm] at h
          rcases matchTokensL_cases toks [TokenType.Bang, TokenType.BangEqual] cur false c hm
            with ⟨-, hc⟩ | ⟨hb, -⟩
          · subst hc
            obtain ⟨g1, g2, g3, g4⟩ := ih PRule.primary c e p h
            have hcp : c < p := g2 rfl
            refine ⟨g1, fun _ => hcp, g3, ?_⟩
            intro f2 hf2 hagree hcomp
            obtain ⟨f2a, rfl⟩ : ∃ f2a, f2 = f2a + 1 := ⟨f2 - 1, by omega⟩
            rw [run_unary]
            rw [matchTokensL_congr toks toks2 [TokenType.Bang, TokenType.BangEqual] c
              (hagree c hcp)]
            simp only [hm]
            exact g4 f2a (by omega) hagree hcomp
          · cases hb
        | true =>
          simp only [hm] at h
          rcases matchTokensL_cases toks [TokenType.Bang, TokenType.BangEqual] cur true c hm
            with ⟨hb, -⟩ | ⟨-, hc, t, hpt, htE, -⟩
          · cases hb
          · subst hc
            cases hop : pPrevious toks (cur + 1) with
            | none => simp [hop] at h
            | some op =>
              simp only [hop] at h
              cases h1 : Parser.run toks f PRule.unary (cur + 1) with
              | none => simp [h1] at h
              | some rp =>
                obtain ⟨r1, p1⟩ := rp
                cases r1 with
                | error m => simp [h1] at h
                | ok r =>
                  simp only [h1] at h
                  simp only [Option.some.injEq, Prod.mk.injEq, Except.ok.injEq] at h
                  obtain ⟨he, hp3⟩ := h
                  subst he
                  subst hp3
                  obtain ⟨g1, g2, g3, g4⟩ := ih PRule.unary (cur + 1) r p1 h1
                  have hcp1 : cur + 1 ≤ p1 := g1
                  refine ⟨by omega, fun _ => by omega, ?_, ?_⟩
                  · intro i tE hci hit hE
                    have hlt : cur < i := cur_lt_eof toks cur i t tE hpt hit hE htE hci
                    exact g3 i tE (by omega) hit hE
                  · intro f2 hf2 hagree hcomp
                    obtain ⟨f2a, rfl⟩ : ∃ f2a, f2 = f2a + 1 := ⟨f2 - 1, by omega⟩
                    rw [run_unary]
                    have hmc : toks2[cur]? = toks[cur]? := hagree cur (by omega)
                    rw [matchTokensL_congr toks toks2 [TokenType.Bang, TokenType.BangEqual]
                      cur hmc]
                    simp only [hm]
                    have hq1 : pPrevious toks2 (cur + 1) = toks2[cur]? := by simp [pPrevious]
                    have hq2 : pPrevious toks (cur + 1) = toks[cur]? := by simp [pPrevious]
                    have hop2 : pPrevious toks2 (cur + 1) = some op := by
                      rw [hq1, hmc, ← hq2, hop]
                    simp only [hop2]
                    have h1a := g4 f2a (by omega) hagree hcomp
                    simp only [h1a]
    | primary =>
      rw [run_primary] at h
      cases hp : pPeek toks cur with
      | none => simp [hp] at h
      | some token =>
        simp only [hp] at h
        have hp2 : toks[cur]? = some token := hp
        by_cases hlp : token.token_type = TokenType.LeftParen
        · rw [if_pos hlp] at h
          have hne : token.token_type ≠ TokenType.Eof := by rw [hlp]; decide
          have hadv : pAdvance toks cur = some (token, cur + 1) := by
            simp only [pAdvance, pPeek, hp2]
            rw [if_neg hne]
            simp [pPrevious, hp2]
          simp only [hadv] at h
          cases h1 : Parser.run toks f PRule.expression (cur + 1) with
          | none => simp [h1] at h
          | some rp =>
            obtain ⟨r1, p1⟩ := rp
            cases r1 with
            | error m => simp [h1] at h
            | ok e1 =>
              simp only [h1] at h
              cases hcons : pConsume toks TokenType.RightParen "Expected ')'" p1 with
              | none => simp [hcons] at h
              | some res =>
                cases res with
                | error m => simp [hcons] at h
                | ok c3 =>
                  simp only [hcons] at h
                  simp only [Option.some.injEq, Prod.mk.injEq, Except.ok.injEq] at h
                  obtain ⟨he, hp3⟩ := h
                  subst he
                  subst hp3
                  obtain ⟨t2, hpt2, hty2, hdisj⟩ := pConsume_ok_cases toks
                    TokenType.RightParen "Expected ')'" p1 c3 hcons
                  rcases hdisj with ⟨hE2, -⟩ | ⟨hne2, hc3⟩
                  · rw [hty2] at hE2
                    exact absurd hE2 (by decide)
                  · subst hc3
                    obtain ⟨g1, g2, g3, g4⟩ := ih PRule.expression (cur + 1) e1 p1 h1
                    have hcp1 : cur + 1 ≤ p1 := g1
                    refine ⟨by omega, fun _ => by omega, ?_, ?_⟩
                    · intro i tE hci hit hE
                      have hlt : cur < i := cur_lt_eof toks cur i token tE hp2 hit hE hne hci
                      have hp1i : p1 ≤ i := g3 i tE (by omega) hit hE
                      have hlt2 : p1 < i := cur_lt_eof toks p1 i t2 tE hpt2 hit hE hne2 hp1i
                      omega
                    · intro f2 hf2 hagree hcomp
                      obtain ⟨f2a, rfl⟩ : ∃ f2a, f2 = f2a + 1 := ⟨f2 - 1, by omega⟩
                      rw [run_primary]
                      have hmc : toks2[cur]? = toks[cur]? := hagree cur (by omega)
                      simp only [pPeek, hmc, hp2]
                      rw [if_pos hlp]
                      have hadv2 : pAdvance toks2 cur = some (token, cur + 1) := by
                        simp only [pAdvance, pPeek, hmc, hp2]
                        rw [if_neg hne]
                        simp [pPrevious, hmc, hp2]
                      simp only [hadv2]
                      have h1a := g4 f2a (by omega) (fun j hj => hagree j (by omega))
                        (compatAt_of_eq toks toks2 p1 (hagree p1 (by omega)))
                      simp only [h1a]
                      have hcons2 : pConsume toks2 TokenType.RightParen "Expected ')'" p1 =
                          some (Except.ok (p1 + 1)) := by
                        rw [pConsume_congr toks toks2 TokenType.RightParen "Expected ')'" p1
                          (by decide) (hagree p1 (by omega))]
                        exact hcons
                      simp only [hcons2]
        · rw [if_neg hlp] at h
          by_cases hlit : token.token_type = TokenType.False ∨
              token.token_type = TokenType.True ∨ token.token_type = TokenType.Nil ∨
              token.token_type = TokenType.Number ∨
              token.token_type = TokenType.StringLiteral
          · rw [if_pos hlit] at h
            have hne : token.token_type ≠ TokenType.Eof := by
              rcases hlit with h5 | h5 | h5 | h5 | h5 <;> rw [h5] <;> decide
            have hadv : pAdvance toks cur = some (token, cur + 1) := by
              simp only [pAdvance, pPeek, hp2]
              rw [if_neg hne]
              simp [pPrevious, hp2]
            simp only [hadv] at h
            cases hv : LiteralValue.from_token token with
            | none => simp [hv] at h
            | some v =>
              simp only [hv] at h
              simp only [Option.some.injEq, Prod.mk.injEq, Except.ok.injEq] at h
              obtain ⟨he, hp3⟩ := h
              subst he
              subst hp3
              refine ⟨by omega, fun _ => by omega, ?_, ?_⟩
              · intro i tE hci hit hE
                have hlt : cur < i := cur_lt_eof toks cur i token tE hp2 hit hE hne hci
                omega
              · intro f2 hf2 hagree hcomp
                obtain ⟨f2a, rfl⟩ : ∃ f2a, f2 = f2a + 1 := ⟨f2 - 1, by omega⟩
                rw [run_primary]
                have hmc : toks2[cur]? = toks[cur]? := hagree cur (by omega)
                simp only [pPeek, hmc, hp2]
                rw [if_neg hlp, if_pos hlit]
                have hadv2 : pAdvance toks2 cur = some (token, cur + 1) := by
                  simp only [pAdvance, pPeek, hmc, hp2]
                  rw [if_neg hne]
                  simp [pPrevious, hmc, hp2]
                simp only [hadv2, hv]
          · rw [if_neg hlit] at h
            simp at h
    | eqLoop e0 =>
      rw [run_eqLoop] at h
      cases hm : matchTokensL toks [TokenType.BangEqual, TokenType.EqualEqual] cur with
      | none => simp [hm] at h
      | some bc =>
        obtain ⟨b, c⟩ := bc
        cases b with
        | false =>
          simp only [hm] at h
          simp only [Option.some.injEq, Prod.mk.injEq, Except.ok.injEq] at h
          obtain ⟨he, hp3⟩ := h
          subst he
          subst hp3
          rcases matchTokensL_cases toks [TokenType.BangEqual, TokenType.EqualEqual] cur false c hm with ⟨-, hc⟩ | ⟨hb, -⟩
          · subst hc
            refine ⟨le_refl _, fun hx => by simp [isProdRule] at hx,
              fun i tE hci _ _ => hci, ?_⟩
            intro f2 hf2 hagree hcomp
            obtain ⟨f2a, rfl⟩ : ∃ f2a, f2 = f2a + 1 := ⟨f2 - 1, by omega⟩
            rw [run_eqLoop]
            have hm2 := matchTokensL_stop_compat toks toks2 [TokenType.BangEqual, TokenType.EqualEqual] c (by decide) hcomp hm
            simp only [hm2]
          · cases hb
        | true =>
          simp only [hm] at h
          rcases matchTokensL_cases toks [TokenType.BangEqual, TokenType.EqualEqual] cur true c hm with
            ⟨hb, -⟩ | ⟨-, hc, t, hpt, htE, -⟩
          · cases hb
          · subst hc
            cases hop : pPrevious toks (cur + 1) with
            | none => simp [hop] at h
            | some op =>
              simp only [hop] at h
              cases h1 : Parser.run toks f PRule.comparison (cur + 1) with
              | none => simp [h1] at h
              | some rp =>
                obtain ⟨r1, p1⟩ := rp
                cases r1 with
                | error m => simp [h1] at h
                | ok r =>
                  simp only [h1] at h
                  obtain ⟨g1, g2, g3, g4⟩ := ih PRule.comparison (cur + 1) r p1 h1
                  obtain ⟨k1, k2, k3, k4⟩ :=
                    ih (PRule.eqLoop (Expression.Binary e0 op r)) p1 e p h
                  have hcp1 : cur + 1 ≤ p1 := g1
                  have hp1p : p1 ≤ p := k1
                  refine ⟨by omega, fun hx => by simp [isProdRule] at hx, ?_, ?_⟩
                  · intro i tE hci hit hE
                    have hlt : cur < i := cur_lt_eof toks cur i t tE hpt hit hE htE hci
                    exact k3 i tE (g3 i tE (by omega) hit hE) hit hE
                  · intro f2 hf2 hagree hcomp
                    obtain ⟨f2a, rfl⟩ : ∃ f2a, f2 = f2a + 1 := ⟨f2 - 1, by omega⟩
                    rw [run_eqLoop]
                    have hmc : toks2[cur]? = toks[cur]? := hagree cur (by omega)
                    rw [matchTokensL_congr toks toks2 [TokenType.BangEqual, TokenType.EqualEqual] cur hmc]
                    simp only [hm]
                    have hq1 : pPrevious toks2 (cur + 1) = toks2[cur]? := by simp [pPrevious]
                    have hq2 : pPrevious toks (cur + 1) = toks[cur]? := by simp [pPrevious]
                    have hop2 : pPrevious toks2 (cur + 1) = some op := by
                      rw [hq1, hmc, ← hq2, hop]
                    simp only [hop2]
                    have h1a := g4 f2a (by omega) (fun j hj => hagree j (by omega))
                      (compatAt_mono toks toks2 p1 p hp1p hagree hcomp)
                    simp only [h1a]
                    exact k4 f2a (by omega) hagree hcomp
    | compLoop e0 =>
      rw [run_compLoop] at h
      cases hm : matchTokensL toks [TokenType.Greater, TokenType.GreaterEqual, TokenType.Less, TokenType.LessEqual] cur with
      | none => simp [hm] at h
      | some bc =>
        obtain ⟨b, c⟩ := bc
        cases b with
        | false =>
          simp only [hm] at h
          simp only [Option.some.injEq, Prod.mk.injEq, Except.ok.injEq] at h
          obtain ⟨he, hp3⟩ := h
          subst he
          subst hp3
          rcases matchTokensL_cases toks [TokenType.Greater, TokenType.GreaterEqual, TokenType.Less, TokenType.LessEqual] cur false c hm with ⟨-, hc⟩ | ⟨hb, -⟩
          · subst hc
            refine ⟨le_refl _, fun hx => by simp [isProdRule] at hx,
              fun i tE hci _ _ => hci, ?_⟩
            intro f2 hf2 hagree hcomp
            obtain ⟨f2a, rfl⟩ : ∃ f2a, f2 = f2a + 1 := ⟨f2 - 1, by omega⟩
            rw [run_compLoop]
            have hm2 := matchTokensL_stop_compat toks toks2 [TokenType.Greater, TokenType.GreaterEqual, TokenType.Less, TokenType.LessEqual] c (by decide) hcomp hm
            simp only [hm2]
          · cases hb
        | true =>
          simp only [hm] at h
          rcases matchTokensL_cases toks [TokenType.Greater, TokenType.GreaterEqual, TokenType.Less, TokenType.LessEqual] cur true c hm with
            ⟨hb, -⟩ | ⟨-, hc, t, hpt, htE, -⟩
          · cases hb
          · subst hc
            cases hop : pPrevious toks (cur + 1) with
            | none => simp [hop] at h
            | some op =>
              simp only [hop] at h
              cases h1 : Parser.run toks f PRule.term (cur + 1) with
              | none => simp [h1] at h
              | some rp =>
                obtain ⟨r1, p1⟩ := rp
                cases r1 with
                | error m => simp [h1] at h
                | ok r =>
                  simp only [h1] at h
                  obtain ⟨g1, g2, g3, g4⟩ := ih PRule.term (cur + 1) r p1 h1
                  obtain ⟨k1, k2, k3, k4⟩ :=
                    ih (PRule.compLoop (Expression.Binary e0 op r)) p1 e p h
                  have hcp1 : cur + 1 ≤ p1 := g1
                  have hp1p : p1 ≤ p := k1
                  refine ⟨by omega, fun hx => by simp [isProdRule] at hx, ?_, ?_⟩
                  · intro i tE hci hit hE
                    have hlt : cur < i := cur_lt_eof toks cur i t tE hpt hit hE htE hci
                    exact k3 i tE (g3 i tE (by omega) hit hE) hit hE
                  · intro f2 hf2 hagree hcomp
                    obtain ⟨f2a, rfl⟩ : ∃ f2a, f2 = f2a + 1 := ⟨f2 - 1, by omega⟩
                    rw [run_compLoop]
                    have hmc : toks2[cur]? = toks[cur]? := hagree cur (by omega)
                    rw [matchTokensL_congr toks toks2 [TokenType.Greater, TokenType.GreaterEqual, TokenType.Less, TokenType.LessEqual] cur hmc]
                    simp only [hm]
                    have hq1 : pPrevious toks2 (cur + 1) = toks2[cur]? := by simp [pPrevious]
                    have hq2 : pPrevious toks (cur + 1) = toks[cur]? := by simp [pPrevious]
                    have hop2 : pPrevious toks2 (cur + 1) = some op := by
                      rw [hq1, hmc, ← hq2, hop]
                    simp only [hop2]
                    have h1a := g4 f2a (by omega) (fun j hj => hagree j (by omega))
                      (compatAt_mono toks toks2 p1 p hp1p hagree hcomp)
                    simp only [h1a]
                    exact k4 f2a (by omega) hagree hcomp
    | termLoop e0 =>
      rw [run_termLoop] at h
      cases hm : matchTokensL toks [TokenType.Minus, TokenType.Plus] cur with
      | none => simp [hm] at h
      | some bc =>
        obtain ⟨b, c⟩ := bc
        cases b with
        | false =>
          simp only [hm] at h
          simp only [Option.some.injEq, Prod.mk.injEq, Except.ok.injEq] at h
          obtain ⟨he, hp3⟩ := h
          subst he
          subst hp3
          rcases matchTokensL_cases toks [TokenType.Minus, TokenType.Plus] cur false c hm with ⟨-, hc⟩ | ⟨hb, -⟩
          · subst hc
            refine ⟨le_refl _, fun hx => by simp [isProdRule] at hx,
              fun i tE hci _ _ => hci, ?_⟩
            intro f2 hf2 hagree hcomp
            obtain ⟨f2a, rfl⟩ : ∃ f2a, f2 = f2a + 1 := ⟨f2 - 1, by omega⟩
            rw [run_termLoop]
            have hm2 := matchTokensL_stop_compat toks toks2 [TokenType.Minus, TokenType.Plus] c (by decide) hcomp hm
            simp only [hm2]
          · cases hb
        | true =>
          simp only [hm] at h
          rcases matchTokensL_cases toks [TokenType.Minus, TokenType.Plus] cur true c hm with
            ⟨hb, -⟩ | ⟨-, hc, t, hpt, htE, -⟩
          · cases hb
          · subst hc
            cases hop : pPrevious toks (cur + 1) with
            | none => simp [hop] at h
            | some op =>
              simp only [hop] at h
              cases h1 : Parser.run toks f PRule.factor (cur + 1) with
              | none => simp [h1] at h
              | some rp =>
                obtain ⟨r1, p1⟩ := rp
                cases r1 with
                | error m => simp [h1] at h
                | ok r =>
                  simp only [h1] at h
                  obtain ⟨g1, g2, g3, g4⟩ := ih PRule.factor (cur + 1) r p1 h1
                  obtain ⟨k1, k2, k3, k4⟩ :=
                    ih (PRule.termLoop (Expression.Binary e0 op r)) p1 e p h
                  have hcp1 : cur + 1 ≤ p1 := g1
                  have hp1p : p1 ≤ p := k1
                  refine ⟨by omega, fun hx => by simp [isProdRule] at hx, ?_, ?_⟩
                  · intro i tE hci hit hE
                    have hlt : cur < i := cur_lt_eof toks cur i t tE hpt hit hE htE hci
                    exact k3 i tE (g3 i tE (by omega) hit hE) hit hE
                  · intro f2 hf2 hagree hcomp
                    obtain ⟨f2a, rfl⟩ : ∃ f2a, f2 = f2a + 1 := ⟨f2 - 1, by omega⟩
                    rw [run_termLoop]
                    have hmc : toks2[cur]? = toks[cur]? := hagree cur (by omega)
                    rw [matchTokensL_congr toks toks2 [TokenType.Minus, TokenType.Plus] cur hmc]
                    simp only [hm]
                    have hq1 : pPrevious toks2 (cur + 1) = toks2[cur]? := by simp [pPrevious]
                    have hq2 : pPrevious toks (cur + 1) = toks[cur]? := by simp [pPrevious]
                    have hop2 : pPrevious toks2 (cur + 1) = some op := by
                      rw [hq1, hmc, ← hq2, hop]
                    simp only [hop2]
                    have h1a := g4 f2a (by omega) (fun j hj => hagree j (by omega))
                      (compatAt_mono toks toks2 p1 p hp1p hagree hcomp)
                    simp only [h1a]
                    exact k4 f2a (by omega) hagree hcomp
    | factorLoop e0 =>
      rw [run_factorLoop] at h
      cases hm : matchTokensL toks [TokenType.Slash, TokenType.Star] cur with
      | none => simp [hm] at h
      | some bc =>
        obtain ⟨b, c⟩ := bc
        cases b with
        | false =>
          simp only [hm] at h
          simp only [Option.some.injEq, Prod.mk.injEq, Except.ok.injEq] at h
          obtain ⟨he, hp3⟩ := h
          subst he
          subst hp3
          rcases matchTokensL_cases toks [TokenType.Slash, TokenType.Star] cur false c hm with ⟨-, hc⟩ | ⟨hb, -⟩
          · subst hc
            refine ⟨le_refl _, fun hx => by simp [isProdRule] at hx,
              fun i tE hci _ _ => hci, ?_⟩
            intro f2 hf2 hagree hcomp
            obtain ⟨f2a, rfl⟩ : ∃ f2a, f2 = f2a + 1 := ⟨f2 - 1, by omega⟩
            rw [run_factorLoop]
            have hm2 := matchTokensL_stop_compat toks toks2 [TokenType.Slash, TokenType.Star] c (by decide) hcomp hm
            simp only [hm2]
          · cases hb
        | true =>
          simp only [hm] at h
          rcases matchTokensL_cases toks [TokenType.Slash, TokenType.Star] cur true c hm with
            ⟨hb, -⟩ | ⟨-, hc, t, hpt, htE, -⟩
          · cases hb
          · subst hc
            cases hop : pPrevious toks (cur + 1) with
            | none => simp [hop] at h
            | some op =>
              simp only [hop] at h
              cases h1 : Parser.run toks f PRule.unary (cur + 1) with
              | none => simp [h1] at h
              | some rp =>
                obtain ⟨r1, p1⟩ := rp
                cases r1 with
                | error m => simp [h1] at h
                | ok r =>
                  simp only [h1] at h
                  obtain ⟨g1, g2, g3, g4⟩ := ih PRule.unary (cur + 1) r p1 h1
                  obtain ⟨k1, k2, k3, k4⟩ :=
                    ih (PRule.factorLoop (Expression.Binary e0 op r)) p1 e p h
                  have hcp1 : cur + 1 ≤ p1 := g1
                  have hp1p : p1 ≤ p := k1
                  refine ⟨by omega, fun hx => by simp [isProdRule] at hx, ?_, ?_⟩
                  · intro i tE hci hit hE
                    have hlt : cur < i := cur_lt_eof toks cur i t tE hpt hit hE htE hci
                    exact k3 i tE (g3 i tE (by omega) hit hE) hit hE
                  · intro f2 hf2 hagree hcomp
                    obtain ⟨f2a, rfl⟩ : ∃ f2a, f2 = f2a + 1 := ⟨f2 - 1, by omega⟩
                    rw [run_factorLoop]
                    have hmc : toks2[cur]? = toks[cur]? := hagree cur (by omega)
                    rw [matchTokensL_congr toks toks2 [TokenType.Slash, TokenType.Star] cur hmc]
                    simp only [hm]
                    have hq1 : pPrevious toks2 (cur + 1) = toks2[cur]? := by simp [pPrevious]
                    have hq2 : pPrevious toks (cur + 1) = toks[cur]? := by simp [pPrevious]
                    have hop2 : pPrevious toks2 (cur + 1) = some op := by
                      rw [hq1, hmc, ← hq2, hop]
                    simp only [hop2]
                    have h1a := g4 f2a (by omega) (fun j hj => hagree j (by omega))
                      (compatAt_mono toks toks2 p1 p hp1p hagree hcomp)
                    simp only [h1a]
                    exact k4 f2a (by omega) hagree hcomp

/-- Claim C10: leftover input after a complete expression is never an
error — if `Parser::parse` succeeds on `pre` followed by the
end-of-input terminator, returning the AST `e` with final cursor `p`,
then on `pre` followed instead by any further tokens whose first token
cannot continue an expression (for example a second literal or a
semicolon; the continuation may itself end in a terminator), `parse`
still returns `Ok` with the same AST `e` and the same final cursor,
leaving the leftover tokens unconsumed. -/
theorem claim_C10_leftover (pre : List Token) (tEof t : Token) (post : List Token)
    (e : Expression) (p : Nat) (hE : tEof.token_type = TokenType.Eof)
    (hok : Parser.parse (pre ++ [tEof]) = some (Except.ok e, p))
    (ht : opCont t.token_type = false) :
    Parser.parse (pre ++ t :: post) = some (Except.ok e, p) := by
  rw [Parser.parse] at hok
  obtain ⟨g1, g2, g3, g4⟩ := run_ok_props (pre ++ [tEof]) (pre ++ t :: post)
    (parserFuel (pre ++ [tEof])) PRule.expression 0 e p hok
  have hEofpos : (pre ++ [tEof])[pre.length]? = some tEof :=
    List.getElem?_concat_length pre tEof
  have hpp : p ≤ pre.length := g3 pre.length tEof (by omega) hEofpos hE
  have hagree : ∀ j, j < p → (pre ++ t :: post)[j]? = (pre ++ [tEof])[j]? := by
    intro j hj
    have hj2 : j < pre.length := by omega
    rw [List.getElem?_append_left hj2, List.getElem?_append_left hj2]
  have htpos : (pre ++ t :: post)[pre.length]? = some t := by
    have hsplit : pre ++ t :: post = (pre ++ [t]) ++ post := by simp
    rw [hsplit, List.getElem?_append_left
      (by simp only [List.length_append, List.length_cons, List.length_nil]; omega)]
    exact List.getElem?_concat_length pre t
  have hcomp : CompatAt (pre ++ [tEof]) (pre ++ t :: post) p := by
    rcases Nat.lt_or_ge p pre.length with hlt | hge
    · exact compatAt_of_eq _ _ p
        (by rw [List.getElem?_append_left hlt, List.getElem?_append_left hlt])
    · have hpe : p = pre.length := by omega
      subst hpe
      refine Or.inr ⟨tEof, t, hEofpos, htpos, ?_, ht⟩
      rw [hE]
      decide
  have hfuel : parserFuel (pre ++ [tEof]) ≤ parserFuel (pre ++ t :: post) := by
    simp only [parserFuel, List.length_append, List.length_cons, List.length_nil]
    omega
  rw [Parser.parse]
  exact g4 (parserFuel (pre ++ t :: post)) hfuel hagree hcomp

/-- Witness for claim C10: the token sequence `1 ;` parses to the
literal `1` at cursor 1, exactly as `1` followed by end-of-input does,
with the semicolon left unconsumed and no error. -/
theorem claim_C10_witness :
    Parser.parse [⟨TokenType.Number, "1", some (TokenLiteralValue.FValue 1), 1⟩,
        ⟨TokenType.SemiColon, ";", none, 1⟩] =
      some (Except.ok (Expression.Literal (LiteralValue.Number 1)), 1) :=
  claim_C10_leftover [⟨TokenType.Number, "1", some (TokenLiteralValue.FValue 1), 1⟩]
    ⟨TokenType.Eof, "", none, 1⟩ ⟨TokenType.SemiColon, ";", none, 1⟩ []
    (Expression.Literal (LiteralValue.Number 1)) 1 (by decide) (by rfl) (by decide)
